import Mathlib

/-!
Verification development for the NeuroMasterBlaster lossless codec
(src/neuralink.hpp, src/arithmetic_coding.hpp, src/bitstream.hpp,
src/wav.hpp, src/encode.cpp, src/decode.cpp).

The C++ sources are shallowly embedded below.  Machine integers are
modelled as `Nat`/`Int` with explicit `% 2^w` where the C++ types wrap
(`& MAX_CODE` becomes `% 131072`, a `uint16_t` store becomes `% 65536`,
`uint32_t` accumulation becomes `Int.emod _ (2^32)`).  The model keeps its
floating point state in exact rational arithmetic: `double` values become
`ℚ`, and the one square root the model takes (`stdev = sqrt(...)`) is
represented by storing the radicand, the field `var` with
`stdev = Real.sqrt var`; every use the source makes of `stdev` (the
comparisons `|ds| > 8.4 * stdev` and `lower_bound(std_levels, stdev)`, and
the square `stdev * stdev`) is expressed on `var` against the squared
thresholds, which is exact because all quantities compared are
nonnegative.  The special function `std::erf` inside `normal_cdf` has no
exact rational form; the table construction is therefore parameterised by
the function `Phi` standing for `normal_cdf`, constrained only by the
properties every cumulative distribution function has (monotone in x for
positive scale, values in [0,1]); theorems about the tables hold for every
such `Phi`, in particular for the one the binary computes.
-/

set_option maxRecDepth 10000

namespace Neuralink

/-! ## Constants (src/neuralink.hpp, class Model) -/

/-- 1024 payload symbols plus one stop symbol. -/
def NUM_SYMBOLS : ℕ := 1025

/-- 2^15 - 1. -/
def MAX_FREQUENCY : ℕ := 32767

/-- 2^17 - 1. -/
def MAX_CODE : ℕ := 131071

def Int25 : ℕ := 32768

def Int50 : ℕ := 65536

def Int75 : ℕ := 98304

/-! ## Bit and byte streams (src/bitstream.hpp) -/

/-- Value of up to 8 bits packed MSB-first into one byte; OBitStream.flush
left-aligns a partial byte, so missing low bits are zero. -/
def octetVal (bs : List Bool) : ℕ :=
  (bs ++ List.replicate (8 - bs.length) false).foldl (fun a b => 2 * a + cond b 1 0) 0

/-- OBitStream: pack a bit list into bytes, MSB-first, zero-padding the
final byte (structural recursion, eight bits at a step). -/
def bitsToBytes : List Bool → List ℕ
  | [] => []
  | b0 :: b1 :: b2 :: b3 :: b4 :: b5 :: b6 :: b7 :: rest =>
    octetVal [b0, b1, b2, b3, b4, b5, b6, b7] :: bitsToBytes rest
  | rest => [octetVal rest]

/-- IBitStream: each byte is read MSB-first. -/
def byteToBits (b : ℕ) : List Bool :=
  (List.range 8).map (fun i => Nat.testBit b (7 - i))

def bytesToBits (bs : List ℕ) : List Bool :=
  (bs.map byteToBits).flatten

/-- A bit source together with the last bit successfully read: when the
C++ IBitStream is exhausted, `get` returns false and leaves its out
parameter untouched, so the decoder keeps seeing the stale bit. -/
def get_bit (s : List Bool × Bool) : Bool × (List Bool × Bool) :=
  match s.1 with
  | [] => (s.2, ([], s.2))
  | b :: r => (b, (r, b))

/-! ## Samples as bytes (little-endian int16, src/encode.cpp, src/decode.cpp) -/

/-- Reinterpret an integer as a signed 16-bit value (two's complement). -/
def toInt16 (t : ℤ) : ℤ :=
  if t % 65536 < 32768 then t % 65536 else t % 65536 - 65536

/-- `inputStream.read` of consecutive little-endian int16 samples; a
trailing odd byte fails the 2-byte read and ends the stream. -/
def parseSamples : List ℕ → List ℤ
  | b0 :: b1 :: rest => toInt16 ((b0 : ℤ) + 256 * (b1 : ℤ)) :: parseSamples rest
  | _ => []

/-- `outputStream.write` of one int16 sample, little-endian. -/
def toBytesLE (x : ℤ) : List ℕ :=
  [((x % 65536).toNat) % 256, ((x % 65536).toNat) / 256]

/-! ## Quantisation (src/neuralink.hpp) -/

/-- `(x >> 6) + 512` with arithmetic shift (floor division) on the signed
16-bit input, stored into a uint16. -/
def neuralink_16bit_to_10bit (x : ℤ) : ℕ :=
  ((Int.fdiv x 64 + 512) % 65536).toNat

/-- C++ truncation toward zero of a real value. -/
def truncQ (q : ℚ) : ℤ :=
  if 0 ≤ q then Rat.floor q else - Rat.floor (-q)

/-- `trunc((u - 512 + 0.5) * (64.0 + 1009.0 / 16384.0) - 0.5)` cast to
int16_t.  The double arithmetic here is exact (all intermediates fit in
53 bits), so the rational computation reproduces it bit for bit. -/
def neuralink_10bit_to_16bit (u : ℕ) : ℤ :=
  toInt16 (truncQ (((u : ℚ) - 512 + 1/2) * (64 + 1009/16384) - 1/2))

/-! ## WAV header handling (src/wav.hpp, src/neuralink.hpp) -/

/-- `read_wav_header`: the vector is resized to 44 (value-initialised to
zero) and then filled with as many bytes as the stream yields, so a short
stream leaves the tail zero and the returned vector always has size 44. -/
def wav_header (input : List ℕ) : List ℕ :=
  List.take 44 input ++ List.replicate (44 - input.length) 0

def numChannels (h : List ℕ) : ℕ := h.getD 22 0 + 256 * h.getD 23 0

def bitsPerSample (h : List ℕ) : ℕ := h.getD 34 0 + 256 * h.getD 35 0

/-- `neuralink_check_wav_header`: throws on size ≠ 44, then on a header
that is not 16-bit mono. -/
def neuralink_check_wav_header (h : List ℕ) : Except String Unit :=
  if h.length ≠ 44 then Except.error "Invalid WAV header size"
  else if numChannels h ≠ 1 ∨ bitsPerSample h ≠ 16 then
    Except.error "Unsupported WAV format, we only support 16 bit mono WAV data"
  else Except.ok ()

/-! ## The adaptive model state (src/neuralink.hpp, class Model)

`var` stores the square of the `stdev` member; see the file comment. -/

structure ModelState where
  active_dist : ℕ
  active_symbol_shift : ℤ
  mean : ℚ
  var : ℚ
  outlier_counter : ℕ
deriving DecidableEq, Repr

def ma : ℚ := 1/5

def ltv : ℚ := 15/2

def alpha : ℚ := 29/40

def beta : ℚ := 7/40

def outlier_level : ℚ := 42/5

def mrr : ℚ := 1/20

/-- `omega = ltv / (1 - alpha - beta)` as the constructor computes it. -/
def omega : ℚ := ltv / (1 - alpha - beta)

/-- `std_levels = {16, 18, 20, 22}`, squared so the `lower_bound` on the
nonnegative `stdev` can be taken on `var`. -/
def std_levels_sq : List ℚ := [256, 324, 400, 484]

/-- `static_cast<SymbolType>` of a double: truncate toward zero, wrap to
uint16 (out-of-range conversion is undefined in C++; the wrap documents a
total choice, and every state reached in this file stays in range). -/
def castUInt16Q (q : ℚ) : ℕ :=
  ((truncQ q) % 65536).toNat

/-- The outlier filter at the top of `Model::update_state`: increment the
counter on an outlier, else reset it; a counter past 3 resets to 0.  The
comparison `|ds| > outlier_level * stdev` is taken squared on `var` (both
sides are nonnegative, so the comparisons agree). -/
def outlier_count_next (st : ModelState) (symbol : ℕ) : ℕ :=
  let ds : ℚ := (symbol : ℚ) - st.mean
  let oc1 : ℕ := if outlier_level ^ 2 * st.var < ds ^ 2 then st.outlier_counter + 1 else 0
  if 3 < oc1 then 0 else oc1

/-- `Model::update_state`.  `lower_bound` on `std_levels` is taken on the
squared levels against `var`; `ds` is the deviation from the pre-update
mean, and the source updates `mean` before `stdev` but reuses the saved
`ds`. -/
def update_state (st : ModelState) (symbol : ℕ) : ModelState :=
  let ds : ℚ := (symbol : ℚ) - st.mean
  let oc : ℕ := outlier_count_next st symbol
  if oc = 0 then
    let mean2 := ma * st.mean + (1 - ma) * (symbol : ℚ)
    let var2 := omega + alpha * st.var + beta * ds ^ 2
    let dist2 := min (std_levels_sq.countP (fun L => decide (L < var2))) 3
    let shift2 := toInt16 (511 - (castUInt16Q (mean2 + ((symbol : ℚ) - mean2) * mrr) : ℤ))
    ModelState.mk dist2 shift2 mean2 var2 0
  else
    ModelState.mk st.active_dist st.active_symbol_shift st.mean st.var oc

/-- Member initialisers of Model: mean 511, stdev 8 (var 64), counters 0. -/
def initModel : ModelState :=
  ModelState.mk 0 0 511 64 0

/-! ## The distribution bank (Model constructor) -/

def cdf_scale (i : ℕ) : ℚ :=
  if i = 1 then 6035/1000 else if i = 2 then 8547/1000
  else if i = 3 then 2005/100 else 5145/1000

def cdf_w : ℕ → ℚ := fun _ => 1/4000

def cdf_z (i : ℕ) : ℚ :=
  if i = 1 then 8284/100 else if i = 2 then 6287/100
  else if i = 3 then 6186/100 else 1063/10

/-- `Model::cdf`, with `Phi` standing for `normal_cdf` (see file comment). -/
def cdf (Phi : ℚ → ℚ → ℚ → ℚ) (x loc scale w z : ℚ) : ℚ :=
  (1 - w - z) * Phi x loc scale + w + (if loc ≤ x then z else 0)

/-- `Model::cdf` called with the parameters of distribution i, as the
constructor does: loc 511, scale cdf_scale[i], w cdf_w[i],
z cdf_z[i] / NUM_SYMBOLS. -/
def cdfAt (Phi : ℚ → ℚ → ℚ → ℚ) (i : ℕ) (x : ℚ) : ℚ :=
  cdf Phi x 511 (cdf_scale i) (cdf_w i) (cdf_z i / (NUM_SYMBOLS : ℚ))

/-- The conditional cumulative frequency table the constructor fills:
entry 0 is 0, entry NUM_SYMBOLS is MAX_FREQUENCY, and every inner entry is
`static_cast<FrequencyType>(p / max_p * (MAX_FREQUENCY - NUM_SYMBOLS)) + j`
stored in a uint16. -/
def ccft (Phi : ℚ → ℚ → ℚ → ℚ) (i j : ℕ) : ℕ :=
  if j = 0 then 0
  else if j = NUM_SYMBOLS then MAX_FREQUENCY
  else
    let max_p := cdfAt Phi i (NUM_SYMBOLS : ℚ)
    let p := cdfAt Phi i (j : ℚ)
    (((truncQ (p / max_p * ((MAX_FREQUENCY : ℚ) - (NUM_SYMBOLS : ℚ)))) % 65536).toNat + j) % 65536

/-- The properties of `normal_cdf` the theorems use: monotone in x when
the scale is positive, and valued in [0, 1]. -/
def PhiOK (Phi : ℚ → ℚ → ℚ → ℚ) : Prop :=
  (∀ loc scale, 0 < scale → ∀ x y : ℚ, x ≤ y → Phi x loc scale ≤ Phi y loc scale) ∧
  (∀ x loc scale, 0 ≤ Phi x loc scale ∧ Phi x loc scale ≤ 1)

/-- The shape of the table the Model exposes to the coder.  The coder and
stream functions below take the filled table `t` (with `t i j` the entry
`ccft[i][j]`) as a parameter; running them at `t = ccft Phi` is the
program as compiled.  Keeping the table a parameter lets every theorem
quantify over it. -/
def TableOK (t : ℕ → ℕ → ℕ) : Prop :=
  ∀ i, i < 4 →
    t i 0 = 0 ∧ t i NUM_SYMBOLS = MAX_FREQUENCY ∧
    ∀ j, j < NUM_SYMBOLS → t i j < t i (j + 1)

/-- `Model::symbol_low_high`: the uint32 accumulator wraps mod 2^32 before
the reduction mod NUM_SYMBOLS. -/
def symbol_low_high (t : ℕ → ℕ → ℕ) (st : ModelState) (symbol : ℕ) : ℕ × ℕ :=
  let loc : ℕ :=
    (((((symbol : ℤ) + (NUM_SYMBOLS : ℤ)) + st.active_symbol_shift) % (2 ^ 32)) %
      (NUM_SYMBOLS : ℤ)).toNat
  (t st.active_dist loc, t st.active_dist (loc + 1))

/-- `std::upper_bound` over the 1026 table entries: the first index whose
entry exceeds `freq` (the table is strictly increasing, so the linear scan
agrees with the binary search), or 1026 when none does. -/
def upper_bound_from (t : ℕ → ℕ) (freq : ℕ) : ℕ → ℕ → ℕ
  | start, 0 => start
  | start, Nat.succ n => if freq < t start then start else upper_bound_from t freq (start + 1) n

/-- `Model::frequency_symbol`. -/
def frequency_symbol (t : ℕ → ℕ → ℕ) (st : ModelState) (freq : ℕ) : ℕ :=
  let ub := upper_bound_from (t st.active_dist) freq 0 (NUM_SYMBOLS + 1)
  let loc : ℕ := if ub = 0 then 0 else ub - 1
  ((((loc : ℤ) + (NUM_SYMBOLS : ℤ) - st.active_symbol_shift) % (2 ^ 32)) %
    (NUM_SYMBOLS : ℤ)).toNat

/-! ## Arithmetic coder (src/arithmetic_coding.hpp)

The renormalisation while-loops are written with an explicit fuel; the
lemma `encode_renorm_break` below shows fuel 17 always reaches the break,
so the fixed fuel 64 used at every call site computes exactly what the
unbounded loop does. -/

/-- `forward_range`: the source updates `high` first from the old `low`,
then `low`; both from `range = high - low + 1`. -/
def forward_range (low high symbol_low symbol_high : ℕ) : ℕ × ℕ :=
  let range := high - low + 1
  (low + range * symbol_low / MAX_FREQUENCY,
   low + range * symbol_high / MAX_FREQUENCY - 1)

/-- `backward_value`. -/
def backward_value (value low high : ℕ) : ℕ :=
  let range := high - low + 1
  ((value - low + 1) * MAX_FREQUENCY - 1) / range

structure EncState where
  low : ℕ
  high : ℕ
  pending_bits : ℕ
deriving DecidableEq, Repr

/-- `ArithmeticEncoder::write_bits`: the bit, then `pending_bits`
complements (the caller resets pending_bits to 0). -/
def write_bits (b : Bool) (pending : ℕ) : List Bool :=
  b :: List.replicate pending (!b)

/-- The renormalisation loop of `ArithmeticEncoder::encode`; `& MAX_CODE`
is `% 131072`. -/
def encode_renorm : ℕ → ℕ → ℕ → ℕ → List Bool × EncState
  | 0, low, high, pending => ([], EncState.mk low high pending)
  | Nat.succ fuel, low, high, pending =>
    if high < Int50 then
      let r := encode_renorm fuel (2 * low % 131072) ((2 * high + 1) % 131072) 0
      (write_bits false pending ++ r.1, r.2)
    else if Int50 ≤ low then
      let r := encode_renorm fuel (2 * low % 131072) ((2 * high + 1) % 131072) 0
      (write_bits true pending ++ r.1, r.2)
    else if Int25 ≤ low ∧ high < Int75 then
      encode_renorm fuel (2 * (low - Int25) % 131072) ((2 * (high - Int25) + 1) % 131072)
        (pending + 1)
    else ([], EncState.mk low high pending)

def RENORM_FUEL : ℕ := 64

/-- `ArithmeticEncoder::encode` for one symbol: interval lookup, range
narrowing, renormalisation; returns the emitted bits and the new state. -/
def encoder_encode (t : ℕ → ℕ → ℕ) (m : ModelState) (st : EncState) (symbol : ℕ) :
    List Bool × EncState :=
  let sl_sh := symbol_low_high t m symbol
  let lh := forward_range st.low st.high sl_sh.1 sl_sh.2
  encode_renorm RENORM_FUEL lh.1 lh.2 st.pending_bits

/-- `ArithmeticEncoder::flush`: increment pending_bits, then `write_bits`
of the disambiguating bit (0 iff `low < Int25`). -/
def encoder_flush (st : EncState) : List Bool :=
  write_bits (decide (¬ st.low < Int25)) (st.pending_bits + 1)

/-- The encoder main loop of `encodeStream`: encode each symbol and update
the model after it. -/
def encode_loop (t : ℕ → ℕ → ℕ) :
    List ℕ → ModelState → EncState → List Bool × ModelState × EncState
  | [], m, st => ([], m, st)
  | s :: rest, m, st =>
    let r := encoder_encode t m st s
    let rec_r := encode_loop t rest (update_state m s) r.2
    (r.1 ++ rec_r.1, rec_r.2)

/-- `encodeStream` after the header: payload symbols, then the stop symbol
(whose encoding is NOT followed by a model update), then the coder flush.
Returns (all bits, final model, final coder state). -/
def encode_run (t : ℕ → ℕ → ℕ) (syms : List ℕ) : List Bool × ModelState × EncState :=
  let r := encode_loop t syms initModel (EncState.mk 0 MAX_CODE 0)
  let rstop := encoder_encode t r.2.1 r.2.2 (NUM_SYMBOLS - 1)
  (r.1 ++ rstop.1 ++ encoder_flush rstop.2, r.2.1, rstop.2)

/-- `encodeStream` (src/encode.cpp): read and check the header, copy it
through, then encode the payload.  A stream shorter than 44 bytes is in a
failed state after the header read, so no sample read succeeds. -/
def encodeStream (t : ℕ → ℕ → ℕ) (input : List ℕ) : Except String (List ℕ) :=
  let header := wav_header input
  match neuralink_check_wav_header header with
  | Except.error e => Except.error e
  | Except.ok _ =>
    let body := if input.length < 44 then [] else List.drop 44 input
    let syms := (parseSamples body).map neuralink_16bit_to_10bit
    Except.ok (header ++ bitsToBytes (encode_run t syms).1)

structure DecState where
  low : ℕ
  high : ℕ
  value : ℕ
deriving DecidableEq, Repr

/-- The renormalisation loop of `ArithmeticDecoder::decode`: no masking;
each iteration shifts one stream bit into `value`. -/
def decode_renorm : ℕ → ℕ → ℕ → ℕ → List Bool × Bool → DecState × (List Bool × Bool)
  | 0, low, high, value, s => (DecState.mk low high value, s)
  | Nat.succ fuel, low, high, value, s =>
    if high < Int50 then
      let bs := get_bit s
      decode_renorm fuel (2 * low) (2 * high + 1) (2 * value + cond bs.1 1 0) bs.2
    else if Int50 ≤ low then
      let bs := get_bit s
      decode_renorm fuel (2 * (low - Int50)) (2 * (high - Int50) + 1)
        (2 * (value - Int50) + cond bs.1 1 0) bs.2
    else if Int25 ≤ low ∧ high < Int75 then
      let bs := get_bit s
      decode_renorm fuel (2 * (low - Int25)) (2 * (high - Int25) + 1)
        (2 * (value - Int25) + cond bs.1 1 0) bs.2
    else (DecState.mk low high value, s)

/-- `ArithmeticDecoder::decode`: locate the symbol from the scaled value,
narrow with its interval, renormalise. -/
def decoder_decode (t : ℕ → ℕ → ℕ) (m : ModelState) (st : DecState)
    (s : List Bool × Bool) : ℕ × DecState × (List Bool × Bool) :=
  let scaled := backward_value st.value st.low st.high
  let symbol := frequency_symbol t m scaled
  let sl_sh := symbol_low_high t m symbol
  let lh := forward_range st.low st.high sl_sh.1 sl_sh.2
  let r := decode_renorm RENORM_FUEL lh.1 lh.2 st.value s
  (symbol, r.1, r.2)

/-- `ArithmeticDecoder::init`: 17 bits shifted MSB-first into value. -/
def read_value : ℕ → ℕ → List Bool × Bool → ℕ × (List Bool × Bool)
  | 0, v, s => (v, s)
  | Nat.succ n, v, s =>
    let bs := get_bit s
    read_value n (2 * v + cond bs.1 1 0) bs.2

/-- The decoder main loop of `decodeStream`: decode a symbol, update the
model, stop on the stop symbol, else emit the symbol.  The C++ loop is
unbounded; the fuel truncates it, and every theorem below holds for every
fuel. -/
def decode_loop (t : ℕ → ℕ → ℕ) :
    ℕ → ModelState → DecState → List Bool × Bool → List ℕ
  | 0, _, _, _ => []
  | Nat.succ fuel, m, st, s =>
    let r := decoder_decode t m st s
    if r.1 = NUM_SYMBOLS - 1 then []
    else r.1 :: decode_loop t fuel (update_state m r.1) r.2.1 r.2.2

/-- The bytes `decodeStream` writes for a list of decoded symbols. -/
def samples_bytes : List ℕ → List ℕ
  | [] => []
  | u :: rest => toBytesLE (neuralink_10bit_to_16bit u) ++ samples_bytes rest

/-- `decodeStream` (src/decode.cpp): read and check the header, copy it
through, read 17 bits into the code value, then decode symbols until the
stop symbol, writing one int16 sample for each payload symbol. -/
def decodeStream (t : ℕ → ℕ → ℕ) (fuel : ℕ) (input : List ℕ) :
    Except String (List ℕ) :=
  let header := wav_header input
  match neuralink_check_wav_header header with
  | Except.error e => Except.error e
  | Except.ok _ =>
    let bits := if input.length < 44 then [] else bytesToBits (List.drop 44 input)
    let v0 := read_value 17 0 (bits, false)
    let syms := decode_loop t fuel initModel (DecState.mk 0 MAX_CODE v0.1) v0.2
    Except.ok (header ++ samples_bytes syms)

/-! ## State predicates and trajectory recorders (for the coder claims) -/

/-- The break condition of both renormalisation loops: none of the E1, E2,
E3 cases applies. -/
def RenormDone (low high : ℕ) : Prop :=
  ¬ high < Int50 ∧ ¬ Int50 ≤ low ∧ ¬ (Int25 ≤ low ∧ high < Int75)

/-- The coder invariant between symbols: an ordered pair within the code
range on which the renormalisation loop has run to its break. -/
def CoderInv (low high : ℕ) : Prop :=
  low ≤ high ∧ high ≤ MAX_CODE ∧ RenormDone low high

/-- The model-state facts that the reachable states maintain: a bank index
below NUM_DIST, a bounded alphabet shift, and a mean inside the symbol
range (511 is the initial mean, updates take convex combinations). -/
def ModelInv (m : ModelState) : Prop :=
  m.active_dist < 4 ∧ -513 ≤ m.active_symbol_shift ∧ m.active_symbol_shift ≤ 511 ∧
  0 ≤ m.mean ∧ m.mean ≤ 1024

/-- The encoder state after each encode call, interleaved with the model
updates as on the encode path. -/
def encoder_states (t : ℕ → ℕ → ℕ) : List ℕ → ModelState → EncState → List EncState
  | [], _, _ => []
  | s :: rest, m, st =>
    (encoder_encode t m st s).2 ::
      encoder_states t rest (update_state m s) (encoder_encode t m st s).2

/-- The decoder state after each decode call, interleaved with the model
updates and the stop test as on the decode path. -/
def decoder_states (t : ℕ → ℕ → ℕ) :
    ℕ → ModelState → DecState → List Bool × Bool → List DecState
  | 0, _, _, _ => []
  | Nat.succ fuel, m, st, s =>
    (decoder_decode t m st s).2.1 ::
      (if (decoder_decode t m st s).1 = NUM_SYMBOLS - 1 then []
       else decoder_states t fuel (update_state m (decoder_decode t m st s).1)
         (decoder_decode t m st s).2.1 (decoder_decode t m st s).2.2)

/-- The decoder applied at a given symbol: the slice of
`ArithmeticDecoder::decode` after the symbol lookup (interval lookup,
narrowing, renormalisation), used to compare the two coders running on
the same symbol stream. -/
def decoder_apply_symbol (t : ℕ → ℕ → ℕ) (m : ModelState) (st : DecState)
    (s : List Bool × Bool) (symbol : ℕ) : DecState × (List Bool × Bool) :=
  let sl_sh := symbol_low_high t m symbol
  let lh := forward_range st.low st.high sl_sh.1 sl_sh.2
  decode_renorm RENORM_FUEL lh.1 lh.2 st.value s

/-- (low, high, model) after each encode call on a given symbol stream. -/
def encoder_lh_traj (t : ℕ → ℕ → ℕ) :
    List ℕ → ModelState → EncState → List (ℕ × ℕ × ModelState)
  | [], _, _ => []
  | s :: rest, m, st =>
    ((encoder_encode t m st s).2.low, (encoder_encode t m st s).2.high, update_state m s) ::
      encoder_lh_traj t rest (update_state m s) (encoder_encode t m st s).2

/-- (low, high, model) after each decode call on the same symbol stream. -/
def decoder_lh_traj (t : ℕ → ℕ → ℕ) :
    List ℕ → ModelState → DecState → List Bool × Bool → List (ℕ × ℕ × ModelState)
  | [], _, _, _ => []
  | s :: rest, m, st, str =>
    ((decoder_apply_symbol t m st str s).1.low, (decoder_apply_symbol t m st str s).1.high,
        update_state m s) ::
      decoder_lh_traj t rest (update_state m s) (decoder_apply_symbol t m st str s).1
        (decoder_apply_symbol t m st str s).2

/-- A concrete strictly increasing table used to instantiate witnesses. -/
def tableLin : ℕ → ℕ → ℕ :=
  fun _ j => if j = NUM_SYMBOLS then MAX_FREQUENCY else 31 * j

/-- A concrete stand-in for `normal_cdf` used to instantiate witnesses:
the constant one half satisfies every property `PhiOK` asks. -/
def phiHalf : ℚ → ℚ → ℚ → ℚ := fun _ _ _ => 1/2

/-- A syntactically valid 44-byte 16-bit mono WAV header: numChannels = 1
at bytes 22..23, bitsPerSample = 16 at bytes 34..35. -/
def hdr44 : List ℕ :=
  [0, 0, 0, 0, 0, 0, 0, 0, 0, 0, 0, 0, 0, 0, 0, 0, 0, 0, 0, 0, 0, 0,
   1, 0, 0, 0, 0, 0, 0, 0, 0, 0, 0, 0, 16, 0, 0, 0, 0, 0, 0, 0, 0, 0]

/-- The first 36 bytes of `hdr44`: a header truncated before byte 44,
still containing the channel and bit-depth fields. -/
def short36 : List ℕ := List.take 36 hdr44

/-- A 44-byte header reporting stereo (numChannels = 2). -/
def hdrStereo : List ℕ :=
  [0, 0, 0, 0, 0, 0, 0, 0, 0, 0, 0, 0, 0, 0, 0, 0, 0, 0, 0, 0, 0, 0,
   2, 0, 0, 0, 0, 0, 0, 0, 0, 0, 0, 0, 16, 0, 0, 0, 0, 0, 0, 0, 0, 0]

lemma phiHalf_ok : PhiOK phiHalf := by
  constructor
  · intro _ _ _ x y _
    exact le_refl _
  · intro _ _ _
    norm_num [phiHalf]

/-! ## C6: what flush emits -/

/-- C6 counterexample: with pending_bits = 0 on entry, flush emits two
bits, not the claimed 0 + 1 = 1 bit (the code increments pending_bits and
then `write_bits` emits 1 + pending_bits bits). -/
theorem C6_counterexample :
    (encoder_flush (EncState.mk 0 MAX_CODE 0)).length ≠ 0 + 1 := by
  decide

/-- C6 amended: for every encoder state with pending_bits = p on entry,
flush emits exactly one bit (0 iff low < Int25) followed by exactly p + 1
complementary bits, p + 2 bits in total. -/
theorem C6_flush_amended (st : EncState) :
    ∃ b : Bool, (b = false ↔ st.low < Int25) ∧
      encoder_flush st = b :: List.replicate (st.pending_bits + 1) (!b) ∧
      (encoder_flush st).length = st.pending_bits + 2 := by
  refine ⟨decide (¬ st.low < Int25), ?_, rfl, ?_⟩
  · by_cases h : st.low < Int25 <;> simp [h]
  · simp [encoder_flush, write_bits]

/-! ## C10: quantisation round trip -/

/-- The exact value `(u - 512 + 0.5) * (64.0 + 1009.0 / 16384.0) - 0.5`
as a quotient of integers. -/
lemma dequant_arg_eq (u : ℕ) :
    ((u : ℚ) - 512 + 1/2) * (64 + 1009/16384) - 1/2 =
      (((2 * (u : ℤ) - 1023) * 1049585 - 16384 : ℤ) : ℚ) / ((32768 : ℕ) : ℚ) := by
  push_cast
  ring

/-- Truncation toward zero of an integer quotient is `Int.tdiv`. -/
lemma truncQ_intCast_div (n : ℤ) (d : ℕ) (hd : 0 < d) :
    truncQ ((n : ℚ) / ((d : ℕ) : ℚ)) = Int.tdiv n d := by
  have hdq : (0 : ℚ) < (d : ℚ) := by exact_mod_cast hd
  have hdz : (0 : ℤ) ≤ (d : ℤ) := by exact_mod_cast hd.le
  by_cases hn : 0 ≤ n
  · have hq : (0 : ℚ) ≤ (n : ℚ) / (d : ℚ) :=
      div_nonneg (by exact_mod_cast hn) hdq.le
    have hfl : Rat.floor ((n : ℚ) / (d : ℚ)) = n / (d : ℤ) := by
      have := Rat.floor_intCast_div_natCast n d
      simpa using this
    rw [truncQ, if_pos hq, hfl, Int.tdiv_eq_ediv hn hdz]
  · push_neg at hn
    have hq : ¬ (0 : ℚ) ≤ (n : ℚ) / (d : ℚ) := by
      push_neg
      apply div_neg_of_neg_of_pos _ hdq
      exact_mod_cast hn
    have hneg : -((n : ℚ) / (d : ℚ)) = ((-n : ℤ) : ℚ) / (d : ℚ) := by
      push_cast
      ring
    have hfl2 : Rat.floor (((-n : ℤ) : ℚ) / (d : ℚ)) = (-n) / (d : ℤ) := by
      have := Rat.floor_intCast_div_natCast (-n) d
      simpa using this
    have htd : Int.tdiv n (d : ℤ) = -Int.tdiv (-n) (d : ℤ) := by
      rw [Int.neg_tdiv, neg_neg]
    rw [truncQ, if_neg hq, hneg, hfl2, htd, Int.tdiv_eq_ediv (by omega) hdz]

/-- `neuralink_10bit_to_16bit` as pure integer arithmetic (the double
computation in the source is exact, see the definition). -/
lemma dequant_eq_tdiv (u : ℕ) :
    neuralink_10bit_to_16bit u =
      toInt16 (Int.tdiv ((2 * (u : ℤ) - 1023) * 1049585 - 16384) 32768) := by
  unfold neuralink_10bit_to_16bit
  rw [dequant_arg_eq, truncQ_intCast_div _ 32768 (by norm_num)]
  norm_num

lemma quant_dequant_int : ∀ u : ℕ, u < 1024 →
    neuralink_16bit_to_10bit
      (toInt16 (Int.tdiv ((2 * (u : ℤ) - 1023) * 1049585 - 16384) 32768)) = u := by
  decide

/-- Helper shared by C10 and C1: the quantiser inverts the dequantiser on
[0, 1023]. -/
lemma quant_dequant (u : ℕ) (hu : u < 1024) :
    neuralink_16bit_to_10bit (neuralink_10bit_to_16bit u) = u := by
  rw [dequant_eq_tdiv]
  exact quant_dequant_int u hu

/-- C10: for every u in [0, 1023], the forward quantiser applied to the
inverse quantiser is the identity. -/
theorem C10_quantization_roundtrip (u : ℕ) (hu : u < 1024) :
    neuralink_16bit_to_10bit (neuralink_10bit_to_16bit u) = u :=
  quant_dequant u hu

/-- C10 witness at u = 512. -/
theorem C10_quantization_roundtrip_witness :
    neuralink_16bit_to_10bit (neuralink_10bit_to_16bit 512) = 512 :=
  C10_quantization_roundtrip 512 (by norm_num)

/-! ## Model state lemmas (C3, C8, C9) -/

lemma update_init_511_var : (update_state initModel 511).var = 607/5 := by
  norm_num [update_state, outlier_count_next, initModel, outlier_level, omega, ltv,
    alpha, beta, ma, std_levels_sq]

/-- C3 counterexample: at the initial state with symbol 511 (no outlier,
deviation 0), the new stdev is sqrt(75 + 0.725 * 64) = sqrt(121.4), not
the claimed sqrt(0.75 + 0.725 * 64) = sqrt(47.15): the constructor
computes omega = ltv / (1 - alpha - beta) = 75, not
ltv * (1 - alpha - beta) = 0.75. -/
theorem C3_counterexample :
    Real.sqrt (((update_state initModel 511).var : ℚ) : ℝ) ≠
      Real.sqrt (((ltv * (1 - alpha - beta) + alpha * initModel.var +
        beta * ((511 : ℚ) - initModel.mean) ^ 2 : ℚ) : ℝ)) := by
  have h1 : (update_state initModel 511).var = 607/5 := update_init_511_var
  have h2 : (ltv * (1 - alpha - beta) + alpha * initModel.var +
      beta * ((511 : ℚ) - initModel.mean) ^ 2 : ℚ) = 943/20 := by
    norm_num [ltv, alpha, beta, initModel]
  rw [h1, h2]
  have hlt : Real.sqrt (((943/20 : ℚ) : ℝ)) < Real.sqrt (((607/5 : ℚ) : ℝ)) := by
    apply Real.sqrt_lt_sqrt
    · push_cast
      norm_num
    · push_cast
      norm_num
  exact ne_of_gt hlt

/-- The frozen branch of `update_state`. -/
lemma update_state_frozen (st : ModelState) (s : ℕ)
    (h : outlier_count_next st s ≠ 0) :
    update_state st s =
      ModelState.mk st.active_dist st.active_symbol_shift st.mean st.var
        (outlier_count_next st s) := by
  unfold update_state
  simp only [if_neg h]

/-- The adaptive branch of `update_state`. -/
lemma update_state_adaptive (st : ModelState) (s : ℕ)
    (h : outlier_count_next st s = 0) :
    update_state st s =
      ModelState.mk
        (min (std_levels_sq.countP
          (fun L => decide (L < omega + alpha * st.var + beta * ((s : ℚ) - st.mean) ^ 2))) 3)
        (toInt16 (511 - (castUInt16Q ((ma * st.mean + (1 - ma) * (s : ℚ)) +
          ((s : ℚ) - (ma * st.mean + (1 - ma) * (s : ℚ))) * mrr) : ℤ)))
        (ma * st.mean + (1 - ma) * (s : ℚ))
        (omega + alpha * st.var + beta * ((s : ℚ) - st.mean) ^ 2)
        0 := by
  unfold update_state
  simp only [if_pos h]

/-- The stored counter is exactly `outlier_count_next`. -/
lemma update_counter_eq (st : ModelState) (s : ℕ) :
    (update_state st s).outlier_counter = outlier_count_next st s := by
  by_cases h : outlier_count_next st s = 0
  · rw [update_state_adaptive st s h, h]
  · rw [update_state_frozen st s h]

/-- The variance recurrence on a non-frozen step. -/
lemma update_var_of_adaptive (st : ModelState) (s : ℕ)
    (h : (update_state st s).outlier_counter = 0) :
    (update_state st s).var = omega + alpha * st.var + beta * ((s : ℚ) - st.mean) ^ 2 := by
  rw [update_counter_eq] at h
  rw [update_state_adaptive st s h]

/-- C3 amended: on every non-frozen update the new stdev is
sqrt(omega + alpha * stdev^2 + beta * ds^2) with ds the pre-update
deviation — but omega is ltv / (1 - alpha - beta) = 75, not
ltv * (1 - alpha - beta) = 0.75. -/
theorem C3_stdev_update_amended (st : ModelState) (s : ℕ)
    (hvar : 0 ≤ st.var)
    (h : (update_state st s).outlier_counter = 0) :
    Real.sqrt (((update_state st s).var : ℚ) : ℝ) =
      Real.sqrt (((omega : ℚ) : ℝ) + ((alpha : ℚ) : ℝ) * Real.sqrt ((st.var : ℚ) : ℝ) ^ 2 +
        ((beta : ℚ) : ℝ) * ((s : ℝ) - ((st.mean : ℚ) : ℝ)) ^ 2) ∧
    omega = ltv / (1 - alpha - beta) ∧ omega = 75 := by
  refine ⟨?_, rfl, by norm_num [omega, ltv, alpha, beta]⟩
  have hv := update_var_of_adaptive st s h
  have hsq : Real.sqrt ((st.var : ℚ) : ℝ) ^ 2 = ((st.var : ℚ) : ℝ) :=
    Real.sq_sqrt (by exact_mod_cast hvar)
  rw [hv, hsq]
  congr 1
  push_cast
  ring

/-- C3 witness: the initial state and symbol 511 make a non-frozen step. -/
theorem C3_stdev_update_amended_witness :
    Real.sqrt (((update_state initModel 511).var : ℚ) : ℝ) =
      Real.sqrt (((omega : ℚ) : ℝ) +
        ((alpha : ℚ) : ℝ) * Real.sqrt ((initModel.var : ℚ) : ℝ) ^ 2 +
        ((beta : ℚ) : ℝ) * ((511 : ℝ) - ((initModel.mean : ℚ) : ℝ)) ^ 2) ∧
    omega = ltv / (1 - alpha - beta) ∧ omega = 75 :=
  C3_stdev_update_amended initModel 511 (by norm_num [initModel])
    (by norm_num [update_state, outlier_count_next, initModel, outlier_level, omega, ltv,
      alpha, beta, ma, std_levels_sq])

/-! ## C8: the encode path does not update the model after the stop symbol -/

lemma encode_loop_model (t : ℕ → ℕ → ℕ) :
    ∀ (syms : List ℕ) (m : ModelState) (st : EncState),
      (encode_loop t syms m st).2.1 = List.foldl update_state m syms := by
  intro syms
  induction syms with
  | nil => intro m st; rfl
  | cons s rest ih =>
    intro m st
    simp only [encode_loop, List.foldl_cons]
    exact ih (update_state m s) (encoder_encode t m st s).2

/-- The final model state of the encode path folds the updates over the
payload symbols only; the stop symbol is encoded but never passed to
`update_state`. -/
lemma encode_run_model (t : ℕ → ℕ → ℕ) (syms : List ℕ) :
    (encode_run t syms).2.1 = List.foldl update_state initModel syms := by
  unfold encode_run
  exact encode_loop_model t syms initModel (EncState.mk 0 MAX_CODE 0)

lemma update_init_stop_counter : (update_state initModel 1024).outlier_counter = 1 := by
  norm_num [update_state, outlier_count_next, initModel, outlier_level]

/-- C8 counterexample: with no payload symbols, the encoder finishes with
the initial model state, while updating on the appended stop symbol would
raise the outlier counter to 1 — so the final model state does not equal
the fold over the sequence with the stop symbol appended. -/
theorem C8_counterexample :
    (encode_run tableLin []).2.1 ≠
      List.foldl update_state initModel ([] ++ [NUM_SYMBOLS - 1]) := by
  rw [encode_run_model]
  intro h
  have h0 : (List.foldl update_state initModel ([] : List ℕ)).outlier_counter = 0 := rfl
  have h1 : (List.foldl update_state initModel ([] ++ [NUM_SYMBOLS - 1])).outlier_counter = 1 := by
    simpa [NUM_SYMBOLS] using update_init_stop_counter
  rw [h] at h0
  rw [h0] at h1
  exact absurd h1 (by norm_num)

/-- C8 amended: `update_state` runs after every payload symbol but not
after the stop symbol, so the final encoder model state is the fold of
the updates over the payload sequence alone. -/
theorem C8_encode_model_amended (t : ℕ → ℕ → ℕ) (syms : List ℕ) :
    (encode_run t syms).2.1 = List.foldl update_state initModel syms :=
  encode_run_model t syms

/-! ## C9: outlier handling freezes the adaptive state -/

/-- C9: on an outlier step (squared deviation beyond the squared
threshold, i.e. |s - mean| > 8.4 * stdev) whose incremented counter stays
at most 3,  mean, stdev (via var), active_dist and active_symbol_shift
are all unchanged and the counter increments; and when the counter was
already 3, this fourth consecutive outlier resets the counter to 0 and
the adaptive update does run. -/
theorem C9_outlier_freeze (st : ModelState) (s : ℕ)
    (hout : outlier_level ^ 2 * st.var < ((s : ℚ) - st.mean) ^ 2) :
    (st.outlier_counter + 1 ≤ 3 →
      (update_state st s).mean = st.mean ∧
      (update_state st s).var = st.var ∧
      (update_state st s).active_dist = st.active_dist ∧
      (update_state st s).active_symbol_shift = st.active_symbol_shift ∧
      (update_state st s).outlier_counter = st.outlier_counter + 1) ∧
    (st.outlier_counter = 3 →
      (update_state st s).outlier_counter = 0 ∧
      (update_state st s).mean = ma * st.mean + (1 - ma) * (s : ℚ) ∧
      (update_state st s).var = omega + alpha * st.var + beta * ((s : ℚ) - st.mean) ^ 2) := by
  have hcnt : outlier_count_next st s =
      (if 3 < st.outlier_counter + 1 then 0 else st.outlier_counter + 1) := by
    unfold outlier_count_next
    simp only [if_pos hout]
  constructor
  · intro h3
    have hns : ¬ 3 < st.outlier_counter + 1 := by omega
    have hoc : outlier_count_next st s = st.outlier_counter + 1 := by
      rw [hcnt, if_neg hns]
    have hnz : outlier_count_next st s ≠ 0 := by omega
    rw [update_state_frozen st s hnz, hoc]
    exact ⟨rfl, rfl, rfl, rfl, rfl⟩
  · intro h3
    have h4 : 3 < st.outlier_counter + 1 := by omega
    have hoc : outlier_count_next st s = 0 := by rw [hcnt, if_pos h4]
    rw [update_state_adaptive st s hoc]
    exact ⟨rfl, rfl, rfl⟩

/-- C9 witness: the initial state with symbol 1023 is an outlier step
(|1023 - 511| = 512 > 8.4 * 8), counter 0 + 1 ≤ 3. -/
theorem C9_outlier_freeze_witness :
    ((initModel.outlier_counter + 1 ≤ 3 →
      (update_state initModel 1023).mean = initModel.mean ∧
      (update_state initModel 1023).var = initModel.var ∧
      (update_state initModel 1023).active_dist = initModel.active_dist ∧
      (update_state initModel 1023).active_symbol_shift = initModel.active_symbol_shift ∧
      (update_state initModel 1023).outlier_counter = initModel.outlier_counter + 1) ∧
    (initModel.outlier_counter = 3 →
      (update_state initModel 1023).outlier_counter = 0 ∧
      (update_state initModel 1023).mean = ma * initModel.mean + (1 - ma) * (1023 : ℚ) ∧
      (update_state initModel 1023).var =
        omega + alpha * initModel.var + beta * ((1023 : ℚ) - initModel.mean) ^ 2)) :=
  C9_outlier_freeze initModel 1023 (by norm_num [initModel, outlier_level])

/-! ## C5: the distribution tables are strictly increasing -/

lemma cdf_w_nonneg (i : ℕ) : (0 : ℚ) ≤ cdf_w i := by
  norm_num [cdf_w]

lemma cdf_scale_pos (i : ℕ) : (0 : ℚ) < cdf_scale i := by
  unfold cdf_scale
  split_ifs <;> norm_num

lemma cdf_z_term_nonneg (i : ℕ) : (0 : ℚ) ≤ cdf_z i / (NUM_SYMBOLS : ℚ) := by
  unfold cdf_z NUM_SYMBOLS
  split_ifs <;> norm_num

lemma cdf_wz_le_one (i : ℕ) : cdf_w i + cdf_z i / (NUM_SYMBOLS : ℚ) ≤ 1 := by
  unfold cdf_w cdf_z NUM_SYMBOLS
  split_ifs <;> norm_num

lemma one_sub_wz_nonneg (i : ℕ) :
    (0 : ℚ) ≤ 1 - cdf_w i - cdf_z i / (NUM_SYMBOLS : ℚ) := by
  have := cdf_wz_le_one i
  linarith

lemma cdfAt_nonneg (Phi : ℚ → ℚ → ℚ → ℚ) (hPhi : PhiOK Phi) (i : ℕ) (x : ℚ) :
    0 ≤ cdfAt Phi i x := by
  unfold cdfAt cdf
  have h1 := one_sub_wz_nonneg i
  have h2 := (hPhi.2 x 511 (cdf_scale i)).1
  have h3 := cdf_w_nonneg i
  have h4 : (0 : ℚ) ≤ (if (511 : ℚ) ≤ x then cdf_z i / (NUM_SYMBOLS : ℚ) else 0) := by
    split_ifs
    · exact cdf_z_term_nonneg i
    · exact le_refl 0
  have h5 : 0 ≤ (1 - cdf_w i - cdf_z i / (NUM_SYMBOLS : ℚ)) * Phi x 511 (cdf_scale i) :=
    mul_nonneg h1 h2
  linarith

lemma cdfAt_mono (Phi : ℚ → ℚ → ℚ → ℚ) (hPhi : PhiOK Phi) (i : ℕ) {x y : ℚ}
    (hxy : x ≤ y) : cdfAt Phi i x ≤ cdfAt Phi i y := by
  unfold cdfAt cdf
  have h1 := one_sub_wz_nonneg i
  have hmono := hPhi.1 511 (cdf_scale i) (cdf_scale_pos i) x y hxy
  have h5 : (1 - cdf_w i - cdf_z i / (NUM_SYMBOLS : ℚ)) * Phi x 511 (cdf_scale i) ≤
      (1 - cdf_w i - cdf_z i / (NUM_SYMBOLS : ℚ)) * Phi y 511 (cdf_scale i) :=
    mul_le_mul_of_nonneg_left hmono h1
  have hind : (if (511 : ℚ) ≤ x then cdf_z i / (NUM_SYMBOLS : ℚ) else 0) ≤
      (if (511 : ℚ) ≤ y then cdf_z i / (NUM_SYMBOLS : ℚ) else 0) := by
    split_ifs with hx hy
    · exact le_refl _
    · exact absurd (le_trans hx hxy) hy
    · exact cdf_z_term_nonneg i
    · exact le_refl 0
  linarith

lemma cdfAt_ge_w (Phi : ℚ → ℚ → ℚ → ℚ) (hPhi : PhiOK Phi) (i : ℕ) (x : ℚ) :
    cdf_w i ≤ cdfAt Phi i x := by
  unfold cdfAt cdf
  have h1 := one_sub_wz_nonneg i
  have h2 := (hPhi.2 x 511 (cdf_scale i)).1
  have h4 : (0 : ℚ) ≤ (if (511 : ℚ) ≤ x then cdf_z i / (NUM_SYMBOLS : ℚ) else 0) := by
    split_ifs
    · exact cdf_z_term_nonneg i
    · exact le_refl 0
  have h5 : 0 ≤ (1 - cdf_w i - cdf_z i / (NUM_SYMBOLS : ℚ)) * Phi x 511 (cdf_scale i) :=
    mul_nonneg h1 h2
  linarith

lemma cdfAt_max_pos (Phi : ℚ → ℚ → ℚ → ℚ) (hPhi : PhiOK Phi) (i : ℕ) :
    0 < cdfAt Phi i (NUM_SYMBOLS : ℚ) := by
  have h := cdfAt_ge_w Phi hPhi i (NUM_SYMBOLS : ℚ)
  have hw : (0 : ℚ) < cdf_w i := by norm_num [cdf_w]
  linarith

/-- The scaled ratio each inner table entry floors, in [0, 31742]. -/
lemma ccft_ratio_bounds (Phi : ℚ → ℚ → ℚ → ℚ) (hPhi : PhiOK Phi) (i j : ℕ)
    (h2 : j ≤ NUM_SYMBOLS) :
    0 ≤ cdfAt Phi i (j : ℚ) / cdfAt Phi i (NUM_SYMBOLS : ℚ) *
        ((MAX_FREQUENCY : ℚ) - (NUM_SYMBOLS : ℚ)) ∧
    cdfAt Phi i (j : ℚ) / cdfAt Phi i (NUM_SYMBOLS : ℚ) *
        ((MAX_FREQUENCY : ℚ) - (NUM_SYMBOLS : ℚ)) ≤ 31742 := by
  have hpos := cdfAt_max_pos Phi hPhi i
  have hp0 := cdfAt_nonneg Phi hPhi i (j : ℚ)
  have hratio0 : 0 ≤ cdfAt Phi i (j : ℚ) / cdfAt Phi i (NUM_SYMBOLS : ℚ) :=
    div_nonneg hp0 hpos.le
  have hjle : ((j : ℚ)) ≤ (NUM_SYMBOLS : ℚ) := by exact_mod_cast h2
  have hratio1 : cdfAt Phi i (j : ℚ) / cdfAt Phi i (NUM_SYMBOLS : ℚ) ≤ 1 :=
    (div_le_one hpos).mpr (cdfAt_mono Phi hPhi i hjle)
  have hc : ((MAX_FREQUENCY : ℚ) - (NUM_SYMBOLS : ℚ)) = 31742 := by
    norm_num [MAX_FREQUENCY, NUM_SYMBOLS]
  constructor
  · rw [hc]
    positivity
  · rw [hc]
    nlinarith

/-- The inner table entries are `floor(ratio) + j` with the floor at most
31742 (so no uint16 wrap fires). -/
lemma ccft_inner_eq (Phi : ℚ → ℚ → ℚ → ℚ) (hPhi : PhiOK Phi) (i j : ℕ)
    (h1 : 1 ≤ j) (h2 : j ≤ 1024) :
    ccft Phi i j =
      (Rat.floor (cdfAt Phi i (j : ℚ) / cdfAt Phi i (NUM_SYMBOLS : ℚ) *
        ((MAX_FREQUENCY : ℚ) - (NUM_SYMBOLS : ℚ)))).toNat + j ∧
    (Rat.floor (cdfAt Phi i (j : ℚ) / cdfAt Phi i (NUM_SYMBOLS : ℚ) *
        ((MAX_FREQUENCY : ℚ) - (NUM_SYMBOLS : ℚ)))).toNat ≤ 31742 := by
  have hNle : j ≤ NUM_SYMBOLS := by
    unfold NUM_SYMBOLS
    omega
  have hrb := ccft_ratio_bounds Phi hPhi i j hNle
  have hfl0 : 0 ≤ Rat.floor (cdfAt Phi i (j : ℚ) / cdfAt Phi i (NUM_SYMBOLS : ℚ) *
      ((MAX_FREQUENCY : ℚ) - (NUM_SYMBOLS : ℚ))) := by
    rw [Rat.le_floor]
    exact_mod_cast hrb.1
  have hfl1 : Rat.floor (cdfAt Phi i (j : ℚ) / cdfAt Phi i (NUM_SYMBOLS : ℚ) *
      ((MAX_FREQUENCY : ℚ) - (NUM_SYMBOLS : ℚ))) ≤ 31742 := by
    by_contra hcon
    push_neg at hcon
    have h31 : ((31743 : ℤ) : ℚ) ≤ cdfAt Phi i (j : ℚ) / cdfAt Phi i (NUM_SYMBOLS : ℚ) *
        ((MAX_FREQUENCY : ℚ) - (NUM_SYMBOLS : ℚ)) := by
      rw [← Rat.le_floor]
      omega
    have h32 : (31743 : ℚ) ≤ cdfAt Phi i (j : ℚ) / cdfAt Phi i (NUM_SYMBOLS : ℚ) *
        ((MAX_FREQUENCY : ℚ) - (NUM_SYMBOLS : ℚ)) := by exact_mod_cast h31
    linarith [hrb.2]
  have htoNat : (Rat.floor (cdfAt Phi i (j : ℚ) / cdfAt Phi i (NUM_SYMBOLS : ℚ) *
      ((MAX_FREQUENCY : ℚ) - (NUM_SYMBOLS : ℚ)))).toNat ≤ 31742 := by omega
  refine ⟨?_, htoNat⟩
  have hj0 : j ≠ 0 := by omega
  have hjN : j ≠ NUM_SYMBOLS := by
    unfold NUM_SYMBOLS
    omega
  have htrunc : truncQ (cdfAt Phi i (j : ℚ) / cdfAt Phi i (NUM_SYMBOLS : ℚ) *
      ((MAX_FREQUENCY : ℚ) - (NUM_SYMBOLS : ℚ))) =
      Rat.floor (cdfAt Phi i (j : ℚ) / cdfAt Phi i (NUM_SYMBOLS : ℚ) *
      ((MAX_FREQUENCY : ℚ) - (NUM_SYMBOLS : ℚ))) := by
    unfold truncQ
    rw [if_pos hrb.1]
  have hmod : (Rat.floor (cdfAt Phi i (j : ℚ) / cdfAt Phi i (NUM_SYMBOLS : ℚ) *
      ((MAX_FREQUENCY : ℚ) - (NUM_SYMBOLS : ℚ)))) % 65536 =
      Rat.floor (cdfAt Phi i (j : ℚ) / cdfAt Phi i (NUM_SYMBOLS : ℚ) *
      ((MAX_FREQUENCY : ℚ) - (NUM_SYMBOLS : ℚ))) := by omega
  simp only [ccft, if_neg hj0, if_neg hjN, htrunc, hmod]
  apply Nat.mod_eq_of_lt
  omega

lemma ccft_zero (Phi : ℚ → ℚ → ℚ → ℚ) (i : ℕ) : ccft Phi i 0 = 0 := by
  unfold ccft
  rw [if_pos rfl]

lemma ccft_top (Phi : ℚ → ℚ → ℚ → ℚ) (i : ℕ) :
    ccft Phi i NUM_SYMBOLS = MAX_FREQUENCY := by
  unfold ccft
  rw [if_neg (by norm_num [NUM_SYMBOLS]), if_pos rfl]

/-- The floors are monotone in j, because the blended cdf is. -/
lemma ccft_floor_mono (Phi : ℚ → ℚ → ℚ → ℚ) (hPhi : PhiOK Phi) (i j k : ℕ)
    (hjk : j ≤ k) :
    (Rat.floor (cdfAt Phi i (j : ℚ) / cdfAt Phi i (NUM_SYMBOLS : ℚ) *
      ((MAX_FREQUENCY : ℚ) - (NUM_SYMBOLS : ℚ)))).toNat ≤
    (Rat.floor (cdfAt Phi i (k : ℚ) / cdfAt Phi i (NUM_SYMBOLS : ℚ) *
      ((MAX_FREQUENCY : ℚ) - (NUM_SYMBOLS : ℚ)))).toNat := by
  have hpos := cdfAt_max_pos Phi hPhi i
  have hjk2 : ((j : ℚ)) ≤ (k : ℚ) := by exact_mod_cast hjk
  have hple := cdfAt_mono Phi hPhi i hjk2
  have hc : (0 : ℚ) ≤ ((MAX_FREQUENCY : ℚ) - (NUM_SYMBOLS : ℚ)) := by
    norm_num [MAX_FREQUENCY, NUM_SYMBOLS]
  have hdle : cdfAt Phi i (j : ℚ) / cdfAt Phi i (NUM_SYMBOLS : ℚ) ≤
      cdfAt Phi i (k : ℚ) / cdfAt Phi i (NUM_SYMBOLS : ℚ) := by
    gcongr
  have hqle : cdfAt Phi i (j : ℚ) / cdfAt Phi i (NUM_SYMBOLS : ℚ) *
      ((MAX_FREQUENCY : ℚ) - (NUM_SYMBOLS : ℚ)) ≤
      cdfAt Phi i (k : ℚ) / cdfAt Phi i (NUM_SYMBOLS : ℚ) *
      ((MAX_FREQUENCY : ℚ) - (NUM_SYMBOLS : ℚ)) :=
    mul_le_mul_of_nonneg_right hdle hc
  have hself : ((Rat.floor (cdfAt Phi i (j : ℚ) / cdfAt Phi i (NUM_SYMBOLS : ℚ) *
      ((MAX_FREQUENCY : ℚ) - (NUM_SYMBOLS : ℚ)))) : ℚ) ≤
      cdfAt Phi i (j : ℚ) / cdfAt Phi i (NUM_SYMBOLS : ℚ) *
      ((MAX_FREQUENCY : ℚ) - (NUM_SYMBOLS : ℚ)) := by
    rw [← Rat.le_floor]
  have hfloor : Rat.floor (cdfAt Phi i (j : ℚ) / cdfAt Phi i (NUM_SYMBOLS : ℚ) *
      ((MAX_FREQUENCY : ℚ) - (NUM_SYMBOLS : ℚ))) ≤
      Rat.floor (cdfAt Phi i (k : ℚ) / cdfAt Phi i (NUM_SYMBOLS : ℚ) *
      ((MAX_FREQUENCY : ℚ) - (NUM_SYMBOLS : ℚ))) :=
    Rat.le_floor.mpr (le_trans hself hqle)
  omega

/-- Each constructed table is strictly increasing at every index. -/
lemma ccft_strict (Phi : ℚ → ℚ → ℚ → ℚ) (hPhi : PhiOK Phi) (i j : ℕ)
    (hj : j < NUM_SYMBOLS) : ccft Phi i j < ccft Phi i (j + 1) := by
  have hjN : j < 1025 := by
    simpa [NUM_SYMBOLS] using hj
  rcases Nat.eq_zero_or_pos j with hj0 | hjpos
  · subst hj0
    have h := ccft_inner_eq Phi hPhi i 1 (le_refl 1) (by omega)
    rw [ccft_zero, show (0 + 1 : ℕ) = 1 from rfl]
    omega
  · rcases Nat.lt_or_ge j 1024 with hlt | hge
    · have hj1 := ccft_inner_eq Phi hPhi i j hjpos (by omega)
      have hj2 := ccft_inner_eq Phi hPhi i (j + 1) (by omega) (by omega)
      have hmono := ccft_floor_mono Phi hPhi i j (j + 1) (by omega)
      omega
    · have hj1024 : j = 1024 := by omega
      subst hj1024
      have hj1 := ccft_inner_eq Phi hPhi i 1024 (by omega) (le_refl 1024)
      have h2 : ccft Phi i 1025 = MAX_FREQUENCY := ccft_top Phi i
      rw [show (1024 + 1 : ℕ) = 1025 from rfl, h2]
      unfold MAX_FREQUENCY
      omega

/-- C5 helper: under the cdf properties every constructed table satisfies
the table invariants. -/
lemma ccft_tableOK (Phi : ℚ → ℚ → ℚ → ℚ) (hPhi : PhiOK Phi) : TableOK (ccft Phi) := by
  intro i _
  exact ⟨ccft_zero Phi i, ccft_top Phi i, fun j hj => ccft_strict Phi hPhi i j hj⟩

/-- C5: for every distribution index i < 4, the constructed table has
ccft[i][0] = 0, ccft[i][1025] = 32767, and is strictly increasing, so
every symbol owns a nonempty frequency subinterval.  `Phi` is the
`normal_cdf` primitive, constrained by `PhiOK`. -/
theorem C5_table_invariants (Phi : ℚ → ℚ → ℚ → ℚ) (hPhi : PhiOK Phi) :
    ∀ i, i < 4 →
      ccft Phi i 0 = 0 ∧ ccft Phi i NUM_SYMBOLS = MAX_FREQUENCY ∧
      ∀ j, j < NUM_SYMBOLS → ccft Phi i j < ccft Phi i (j + 1) :=
  ccft_tableOK Phi hPhi

/-- C5 witness at the concrete cdf stand-in `phiHalf` and index 2. -/
theorem C5_table_invariants_witness :
    ccft phiHalf 2 0 = 0 ∧ ccft phiHalf 2 NUM_SYMBOLS = MAX_FREQUENCY ∧
    ∀ j, j < NUM_SYMBOLS → ccft phiHalf 2 j < ccft phiHalf 2 (j + 1) :=
  C5_table_invariants phiHalf phiHalf_ok 2 (by norm_num)

/-! ## General facts about valid tables (used for the coder claims) -/

lemma tableOK_mono (t : ℕ → ℕ → ℕ) (ht : TableOK t) (i : ℕ) (hi : i < 4) :
    ∀ a b : ℕ, a ≤ b → b ≤ NUM_SYMBOLS → t i a ≤ t i b := by
  intro a b hab hb
  induction b with
  | zero =>
    have : a = 0 := by omega
    subst this
    exact le_refl _
  | succ n ih =>
    rcases Nat.lt_or_ge a (n + 1) with hlt | hge
    · have h1 : t i a ≤ t i n := ih (by omega) (by
        unfold NUM_SYMBOLS at hb ⊢
        omega)
      have h2 : t i n < t i (n + 1) := (ht i hi).2.2 n (by
        unfold NUM_SYMBOLS at hb ⊢
        omega)
      omega
    · have : a = n + 1 := by omega
      subst this
      exact le_refl _

lemma tableOK_le_max (t : ℕ → ℕ → ℕ) (ht : TableOK t) (i : ℕ) (hi : i < 4)
    (j : ℕ) (hj : j ≤ NUM_SYMBOLS) : t i j ≤ MAX_FREQUENCY := by
  have h := tableOK_mono t ht i hi j NUM_SYMBOLS hj (le_refl _)
  rw [(ht i hi).2.1] at h
  exact h

/-! ## C7: malformed container handling -/

lemma wav_header_length (input : List ℕ) : (wav_header input).length = 44 := by
  simp only [wav_header, List.length_append, List.length_take, List.length_replicate]
  omega

/-- The header check fails with the format error exactly on the channel
and bit-depth fields (the size check can never fire on a header read by
`read_wav_header`, whose result always has 44 bytes). -/
lemma check_wav_format_error (input : List ℕ)
    (h : numChannels (wav_header input) ≠ 1 ∨ bitsPerSample (wav_header input) ≠ 16) :
    neuralink_check_wav_header (wav_header input) =
      Except.error "Unsupported WAV format, we only support 16 bit mono WAV data" := by
  unfold neuralink_check_wav_header
  rw [if_neg (by rw [wav_header_length]; omega), if_pos h]

/-- C7 counterexample: a 36-byte input that is a strict prefix of a valid
mono 16-bit header.  The claim says a header shorter than 44 bytes is
reported as a fatal error before any payload work; instead
`read_wav_header` zero-pads the missing bytes, the checks pass, and
encoding runs to completion, emitting the padded header and the encoded
stop symbol. -/
theorem C7_counterexample :
    short36.length < 44 ∧
    encodeStream tableLin short36 =
      Except.ok
        [0, 0, 0, 0, 0, 0, 0, 0, 0, 0, 0, 0, 0, 0, 0, 0, 0, 0, 0, 0, 0, 0,
         1, 0, 0, 0, 0, 0, 0, 0, 0, 0, 0, 0, 16, 0, 0, 0, 0, 0, 0, 0, 0, 0, 250] := by
  constructor
  · decide
  · rfl

/-- C7 amended: a fatal malformed-container error is reported, before any
payload work, exactly when the 44-byte header (zero-padded if the stream
is shorter) has numChannels ≠ 1 or bitsPerSample ≠ 16; a truncated header
alone is not detected when its padded bytes still pass those checks. -/
theorem C7_malformed_header_amended (t : ℕ → ℕ → ℕ) (fuel : ℕ) (input : List ℕ)
    (h : numChannels (wav_header input) ≠ 1 ∨ bitsPerSample (wav_header input) ≠ 16) :
    encodeStream t input =
      Except.error "Unsupported WAV format, we only support 16 bit mono WAV data" ∧
    decodeStream t fuel input =
      Except.error "Unsupported WAV format, we only support 16 bit mono WAV data" := by
  have hc := check_wav_format_error input h
  constructor
  · simp only [encodeStream, hc]
  · simp only [decodeStream, hc]

/-- C7 witness: a stereo header is rejected by both paths. -/
theorem C7_malformed_header_amended_witness :
    encodeStream tableLin hdrStereo =
      Except.error "Unsupported WAV format, we only support 16 bit mono WAV data" ∧
    decodeStream tableLin 1 hdrStereo =
      Except.error "Unsupported WAV format, we only support 16 bit mono WAV data" :=
  C7_malformed_header_amended tableLin 1 hdrStereo (by decide)

/-! ## C1: the byte-level round trip -/

lemma frequency_symbol_lt (t : ℕ → ℕ → ℕ) (m : ModelState) (f : ℕ) :
    frequency_symbol t m f < NUM_SYMBOLS := by
  simp only [frequency_symbol, NUM_SYMBOLS]
  omega

/-- Every symbol the decoder loop emits is a payload symbol below 1024. -/
lemma decode_loop_mem_lt (t : ℕ → ℕ → ℕ) :
    ∀ (fuel : ℕ) (m : ModelState) (st : DecState) (s : List Bool × Bool),
      ∀ u ∈ decode_loop t fuel m st s, u < 1024 := by
  intro fuel
  induction fuel with
  | zero =>
    intro m st s u hu
    simp [decode_loop] at hu
  | succ n ih =>
    intro m st s u hu
    simp only [decode_loop] at hu
    by_cases hstop : (decoder_decode t m st s).1 = NUM_SYMBOLS - 1
    · rw [if_pos hstop] at hu
      simp at hu
    · rw [if_neg hstop] at hu
      rcases List.mem_cons.mp hu with h | h
      · subst h
        have hlt := frequency_symbol_lt t m (backward_value st.value st.low st.high)
        have hne : (decoder_decode t m st s).1 ≠ NUM_SYMBOLS - 1 := hstop
        have hproj : (decoder_decode t m st s).1 =
            frequency_symbol t m (backward_value st.value st.low st.high) := rfl
        rw [hproj] at hne
        unfold NUM_SYMBOLS at hne hlt
        omega
      · exact ih _ _ _ u h

lemma wav_header_append_of_len (A r : List ℕ) (hA : A.length = 44) :
    wav_header (A ++ r) = A := by
  unfold wav_header
  have hlen : (A ++ r).length = 44 + r.length := by
    rw [List.length_append, hA]
  rw [hlen]
  have h0 : 44 - (44 + r.length) = 0 := by omega
  rw [h0, List.replicate_zero, List.append_nil]
  rw [← hA, List.take_left]

lemma encodeStream_ok (t : ℕ → ℕ → ℕ) (input : List ℕ)
    (h : neuralink_check_wav_header (wav_header input) = Except.ok ()) :
    encodeStream t input =
      Except.ok (wav_header input ++
        bitsToBytes (encode_run t ((parseSamples
          (if input.length < 44 then [] else List.drop 44 input)).map
            neuralink_16bit_to_10bit)).1) := by
  simp only [encodeStream, h]

lemma decodeStream_ok (t : ℕ → ℕ → ℕ) (fuel : ℕ) (input : List ℕ)
    (h : neuralink_check_wav_header (wav_header input) = Except.ok ()) :
    decodeStream t fuel input =
      Except.ok (wav_header input ++
        samples_bytes (decode_loop t fuel initModel
          (DecState.mk 0 MAX_CODE
            (read_value 17 0
              ((if input.length < 44 then [] else bytesToBits (List.drop 44 input)), false)).1)
          (read_value 17 0
            ((if input.length < 44 then [] else bytesToBits (List.drop 44 input)), false)).2)) := by
  simp only [decodeStream, h]

lemma toInt16_bounds (x : ℤ) : -32768 ≤ toInt16 x ∧ toInt16 x < 32768 := by
  unfold toInt16
  omega

lemma toInt16_eq_self (x : ℤ) (h1 : -32768 ≤ x) (h2 : x < 32768) : toInt16 x = x := by
  unfold toInt16
  omega

lemma dequant_bounds (u : ℕ) :
    -32768 ≤ neuralink_10bit_to_16bit u ∧ neuralink_10bit_to_16bit u < 32768 := by
  unfold neuralink_10bit_to_16bit
  exact toInt16_bounds _

lemma dequant_int_ne_zero : ∀ u : ℕ, u < 1024 →
    toInt16 (Int.tdiv ((2 * (u : ℤ) - 1023) * 1049585 - 16384) 32768) ≠ 0 := by
  decide

/-- No payload symbol dequantises to the sample value 0: the dequantiser
jumps from -32 (at u = 511) to 31 (at u = 512). -/
lemma dequant_ne_zero (u : ℕ) (hu : u < 1024) : neuralink_10bit_to_16bit u ≠ 0 := by
  rw [dequant_eq_tdiv]
  exact dequant_int_ne_zero u hu

/-- Parsing undoes writing one in-range sample. -/
lemma parse_cons (x : ℤ) (h1 : -32768 ≤ x) (h2 : x < 32768) (rest : List ℕ) :
    parseSamples (toBytesLE x ++ rest) = x :: parseSamples rest := by
  unfold toBytesLE
  have hm : ((((x % 65536).toNat % 256 : ℕ) : ℤ) +
      256 * (((x % 65536).toNat / 256 : ℕ) : ℤ)) = x % 65536 := by
    have hsplit : (x % 65536).toNat % 256 + 256 * ((x % 65536).toNat / 256) =
        (x % 65536).toNat := Nat.mod_add_div _ _
    omega
  show toInt16 _ :: parseSamples rest = x :: parseSamples rest
  rw [hm]
  have hmm : toInt16 (x % 65536) = toInt16 x := by
    unfold toInt16
    omega
  rw [hmm, toInt16_eq_self x h1 h2]

lemma parse_samples_bytes (us : List ℕ) (h : ∀ u ∈ us, u < 1024) :
    parseSamples (samples_bytes us) = us.map neuralink_10bit_to_16bit := by
  induction us with
  | nil => rfl
  | cons u rest ih =>
    have hu : u < 1024 := h u (List.mem_cons_self u rest)
    have hb := dequant_bounds u
    show parseSamples (toBytesLE (neuralink_10bit_to_16bit u) ++ samples_bytes rest) = _
    rw [parse_cons _ hb.1 hb.2, ih (fun v hv => h v (List.mem_cons_of_mem u hv))]
    rfl

/-- The bytes of a nonempty payload never start with the two zero bytes
of sample value 0. -/
lemma samples_bytes_ne_zero_pair (us : List ℕ) (h : ∀ u ∈ us, u < 1024) :
    samples_bytes us ≠ [0, 0] := by
  cases us with
  | nil => simp [samples_bytes]
  | cons u rest =>
    intro hcon
    have hu : u < 1024 := h u (List.mem_cons_self u rest)
    have hnz := dequant_ne_zero u hu
    have hb := dequant_bounds u
    have hmz : ((neuralink_10bit_to_16bit u) % 65536).toNat ≠ 0 := by
      intro hz
      apply hnz
      omega
    have hshape : samples_bytes (u :: rest) =
        ((neuralink_10bit_to_16bit u) % 65536).toNat % 256 ::
        ((neuralink_10bit_to_16bit u) % 65536).toNat / 256 :: samples_bytes rest := rfl
    rw [hshape] at hcon
    have h0 : ((neuralink_10bit_to_16bit u) % 65536).toNat % 256 = 0 :=
      (List.cons.injEq _ _ _ _).mp hcon |>.1
    have h1 : ((neuralink_10bit_to_16bit u) % 65536).toNat / 256 = 0 := by
      have := ((List.cons.injEq _ _ _ _).mp hcon).2
      exact ((List.cons.injEq _ _ _ _).mp this).1
    omega

/-- Any successful round trip forces the input to be its own header
followed by the byte images of payload symbols below 1024. -/
lemma roundtrip_payload (t : ℕ → ℕ → ℕ) (fuel : ℕ) (input : List ℕ)
    (hok : neuralink_check_wav_header (wav_header input) = Except.ok ())
    (hrt : (encodeStream t input).bind (decodeStream t fuel) = Except.ok input) :
    ∃ us : List ℕ, (∀ u ∈ us, u < 1024) ∧
      input = wav_header input ++ samples_bytes us := by
  have henc := encodeStream_ok t input hok
  have hlen44 : (wav_header input).length = 44 := wav_header_length input
  rw [henc] at hrt
  simp only [Except.bind] at hrt
  have hok2 : neuralink_check_wav_header (wav_header (wav_header input ++
      bitsToBytes (encode_run t ((parseSamples
        (if input.length < 44 then [] else List.drop 44 input)).map
          neuralink_16bit_to_10bit)).1)) = Except.ok () := by
    rw [wav_header_append_of_len _ _ hlen44]
    exact hok
  rw [decodeStream_ok t fuel _ hok2] at hrt
  rw [wav_header_append_of_len _ _ hlen44] at hrt
  exact ⟨_, decode_loop_mem_lt t _ _ _ _, (Except.ok.inj hrt).symm⟩

/-- C1 counterexample: the valid mono 16-bit WAV consisting of `hdr44`
and the single sample 0 cannot round-trip, whatever frequency table the
model built and however long the decoder runs: every sample the decoder
writes lies in the image of the dequantiser, which skips 0 (it jumps from
-32 to 31).  In particular the claim fails for the program as compiled. -/
theorem C1_counterexample :
    ∃ input : List ℕ,
      neuralink_check_wav_header (wav_header input) = Except.ok () ∧
      ∀ (t : ℕ → ℕ → ℕ) (fuel : ℕ),
        (encodeStream t input).bind (decodeStream t fuel) ≠ Except.ok input := by
  refine ⟨hdr44 ++ [0, 0], by rfl, ?_⟩
  intro t fuel hcon
  have hok : neuralink_check_wav_header (wav_header (hdr44 ++ [0, 0])) = Except.ok () := by
    rfl
  obtain ⟨us, hmem, heq⟩ := roundtrip_payload t fuel _ hok hcon
  rw [wav_header_append_of_len hdr44 [0, 0] (by rfl)] at heq
  have hsb : samples_bytes us = [0, 0] := List.append_cancel_left heq.symm
  exact samples_bytes_ne_zero_pair us hmem hsb

/-- C1 amended: the encoder reproduces the 44-byte header verbatim at the
head of its output, and byte-exact `decode(encode(sigma)) = sigma` can
hold only when every payload sample of sigma is a fixed point of
dequantise-after-quantise (every decoded sample lies in the image of the
dequantiser, so samples such as 0 make exact round trip impossible). -/
theorem C1_roundtrip_amended (t : ℕ → ℕ → ℕ) (fuel : ℕ) (input : List ℕ)
    (hok : neuralink_check_wav_header (wav_header input) = Except.ok ())
    (hrt : (encodeStream t input).bind (decodeStream t fuel) = Except.ok input) :
    (∀ out, encodeStream t input = Except.ok out → List.take 44 out = wav_header input) ∧
    (∀ x ∈ parseSamples (if input.length < 44 then [] else List.drop 44 input),
      neuralink_10bit_to_16bit (neuralink_16bit_to_10bit x) = x) := by
  have henc := encodeStream_ok t input hok
  have hlen44 : (wav_header input).length = 44 := wav_header_length input
  constructor
  · intro out hout
    rw [henc] at hout
    have hval := Except.ok.inj hout
    rw [← hval, ← hlen44, List.take_left]
  · obtain ⟨us, hmem, heq⟩ := roundtrip_payload t fuel input hok hrt
    have hlen : ¬ input.length < 44 := by
      rw [heq, List.length_append, hlen44]
      omega
    have hbody : List.drop 44 input = samples_bytes us := by
      conv =>
        lhs
        rw [heq]
      rw [← hlen44, List.drop_left]
    intro x hx
    rw [if_neg hlen, hbody, parse_samples_bytes us hmem] at hx
    rcases List.mem_map.mp hx with ⟨u, hu, hxu⟩
    have huval : u < 1024 := hmem u hu
    rw [← hxu, quant_dequant u huval]

/-- C1 witness: the header-only WAV does round trip (its payload is
empty, vacuously all fixed points), at the concrete table `tableLin`. -/
theorem C1_roundtrip_amended_witness :
    (∀ out, encodeStream tableLin hdr44 = Except.ok out →
      List.take 44 out = wav_header hdr44) ∧
    (∀ x ∈ parseSamples (if hdr44.length < 44 then [] else List.drop 44 hdr44),
      neuralink_10bit_to_16bit (neuralink_16bit_to_10bit x) = x) :=
  C1_roundtrip_amended tableLin 5 hdr44 (by rfl) (by rfl)

/-! ## C4 and C2: renormalisation lemmas -/

/-- The encoder loop reaches the break with the invariant restored, for
any fuel that makes the doubling width pass 2^17 (fuel 17 suffices from
any start; every call uses fuel 64). -/
lemma encode_renorm_post : ∀ (fuel low high pending : ℕ),
    low ≤ high → high ≤ MAX_CODE → 131072 ≤ (high - low + 1) * 2 ^ fuel →
    CoderInv (encode_renorm fuel low high pending).2.low
      (encode_renorm fuel low high pending).2.high := by
  intro fuel
  induction fuel with
  | zero =>
    intro low high pending h1 h2 h3
    rw [pow_zero, Nat.mul_one] at h3
    have h2' : high ≤ 131071 := h2
    have hl : low = 0 := by omega
    have hh : high = 131071 := by omega
    subst hl
    subst hh
    show CoderInv 0 131071
    exact ⟨by omega, by
      show (131071 : ℕ) ≤ 131071
      omega, by
        show ¬ (131071 : ℕ) < 65536
        omega, by
        show ¬ (65536 : ℕ) ≤ 0
        omega, by
        intro hc
        have : (32768 : ℕ) ≤ 0 := hc.1
        omega⟩
  | succ n ih =>
    intro low high pending h1 h2 h3
    have h2' : high ≤ 131071 := h2
    have hpow : (high - low + 1) * 2 ^ (n + 1) = (2 * (high - low + 1)) * 2 ^ n := by
      rw [pow_succ]
      ring
    rw [hpow] at h3
    by_cases c1 : high < Int50
    · have c1' : high < 65536 := c1
      have estep : (encode_renorm (Nat.succ n) low high pending).2 =
          (encode_renorm n (2 * low % 131072) ((2 * high + 1) % 131072) 0).2 := by
        simp [encode_renorm, c1]
      rw [estep]
      have ha : 2 * low % 131072 = 2 * low := by omega
      have hb : (2 * high + 1) % 131072 = 2 * high + 1 := by omega
      rw [ha, hb]
      apply ih _ _ 0 (by omega) (by show 2 * high + 1 ≤ 131071; omega)
      have : 2 * high + 1 - 2 * low + 1 = 2 * (high - low + 1) := by omega
      rw [this]
      exact h3
    · by_cases c2 : Int50 ≤ low
      · have c2' : 65536 ≤ low := c2
        have estep : (encode_renorm (Nat.succ n) low high pending).2 =
            (encode_renorm n (2 * low % 131072) ((2 * high + 1) % 131072) 0).2 := by
          simp [encode_renorm, c1, c2]
        rw [estep]
        have ha : 2 * low % 131072 = 2 * low - 131072 := by omega
        have hb : (2 * high + 1) % 131072 = 2 * high + 1 - 131072 := by omega
        rw [ha, hb]
        apply ih _ _ 0 (by omega) (by show 2 * high + 1 - 131072 ≤ 131071; omega)
        have : 2 * high + 1 - 131072 - (2 * low - 131072) + 1 = 2 * (high - low + 1) := by
          omega
        rw [this]
        exact h3
      · by_cases c3 : Int25 ≤ low ∧ high < Int75
        · have c1' : ¬ high < 65536 := c1
          have c2' : ¬ 65536 ≤ low := c2
          have c3a : 32768 ≤ low := c3.1
          have c3b : high < 98304 := c3.2
          have estep : (encode_renorm (Nat.succ n) low high pending).2 =
              (encode_renorm n (2 * (low - Int25) % 131072)
                ((2 * (high - Int25) + 1) % 131072) (pending + 1)).2 := by
            simp [encode_renorm, c1, c2, c3.1, c3.2]
          rw [estep]
          have hInt : Int25 = 32768 := rfl
          rw [hInt]
          have ha : 2 * (low - 32768) % 131072 = 2 * (low - 32768) := by omega
          have hb : (2 * (high - 32768) + 1) % 131072 = 2 * (high - 32768) + 1 := by omega
          rw [ha, hb]
          apply ih _ _ (pending + 1) (by omega)
            (by show 2 * (high - 32768) + 1 ≤ 131071; omega)
          have : 2 * (high - 32768) + 1 - 2 * (low - 32768) + 1 = 2 * (high - low + 1) := by
            omega
          rw [this]
          exact h3
        · have estep : (encode_renorm (Nat.succ n) low high pending).2 =
              EncState.mk low high pending := by
            simp [encode_renorm, c1, c2, c3]
          rw [estep]
          exact ⟨h1, h2, c1, c2, c3⟩

/-- The decoder loop mirrors the break and keeps `low ≤ value ≤ high`. -/
lemma decode_renorm_post : ∀ (fuel low high value : ℕ) (s : List Bool × Bool),
    low ≤ high → high ≤ MAX_CODE → low ≤ value → value ≤ high →
    131072 ≤ (high - low + 1) * 2 ^ fuel →
    CoderInv (decode_renorm fuel low high value s).1.low
        (decode_renorm fuel low high value s).1.high ∧
      (decode_renorm fuel low high value s).1.low ≤
        (decode_renorm fuel low high value s).1.value ∧
      (decode_renorm fuel low high value s).1.value ≤
        (decode_renorm fuel low high value s).1.high := by
  intro fuel
  induction fuel with
  | zero =>
    intro low high value s h1 h2 hv1 hv2 h3
    rw [pow_zero, Nat.mul_one] at h3
    have h2' : high ≤ 131071 := h2
    have hl : low = 0 := by omega
    have hh : high = 131071 := by omega
    subst hl
    subst hh
    show CoderInv 0 131071 ∧ 0 ≤ value ∧ value ≤ 131071
    refine ⟨⟨by omega, by show (131071 : ℕ) ≤ 131071; omega, ?_, ?_, ?_⟩, hv1, hv2⟩
    · show ¬ (131071 : ℕ) < 65536
      omega
    · show ¬ (65536 : ℕ) ≤ 0
      omega
    · intro hc
      have : (32768 : ℕ) ≤ 0 := hc.1
      omega
  | succ n ih =>
    intro low high value s h1 h2 hv1 hv2 h3
    have h2' : high ≤ 131071 := h2
    have hpow : (high - low + 1) * 2 ^ (n + 1) = (2 * (high - low + 1)) * 2 ^ n := by
      rw [pow_succ]
      ring
    rw [hpow] at h3
    have hbit : cond (get_bit s).1 1 0 ≤ 1 := by
      cases (get_bit s).1 <;> simp
    by_cases c1 : high < Int50
    · have c1' : high < 65536 := c1
      have estep : decode_renorm (Nat.succ n) low high value s =
          decode_renorm n (2 * low) (2 * high + 1)
            (2 * value + cond (get_bit s).1 1 0) (get_bit s).2 := by
        simp [decode_renorm, c1]
      rw [estep]
      apply ih _ _ _ _ (by omega) (by show 2 * high + 1 ≤ 131071; omega)
        (by omega) (by omega)
      have : 2 * high + 1 - 2 * low + 1 = 2 * (high - low + 1) := by omega
      rw [this]
      exact h3
    · by_cases c2 : Int50 ≤ low
      · have c2' : 65536 ≤ low := c2
        have estep : decode_renorm (Nat.succ n) low high value s =
            decode_renorm n (2 * (low - Int50)) (2 * (high - Int50) + 1)
              (2 * (value - Int50) + cond (get_bit s).1 1 0) (get_bit s).2 := by
          simp [decode_renorm, c1, c2]
        rw [estep]
        have hInt : Int50 = 65536 := rfl
        rw [hInt]
        apply ih _ _ _ _ (by omega) (by show 2 * (high - 65536) + 1 ≤ 131071; omega)
          (by omega) (by omega)
        have : 2 * (high - 65536) + 1 - 2 * (low - 65536) + 1 = 2 * (high - low + 1) := by
          omega
        rw [this]
        exact h3
      · by_cases c3 : Int25 ≤ low ∧ high < Int75
        · have c3a : 32768 ≤ low := c3.1
          have c3b : high < 98304 := c3.2
          have estep : decode_renorm (Nat.succ n) low high value s =
              decode_renorm n (2 * (low - Int25)) (2 * (high - Int25) + 1)
                (2 * (value - Int25) + cond (get_bit s).1 1 0) (get_bit s).2 := by
            simp [decode_renorm, c1, c2, c3.1, c3.2]
          rw [estep]
          have hInt : Int25 = 32768 := rfl
          rw [hInt]
          apply ih _ _ _ _ (by omega) (by show 2 * (high - 32768) + 1 ≤ 131071; omega)
            (by omega) (by omega)
          have : 2 * (high - 32768) + 1 - 2 * (low - 32768) + 1 = 2 * (high - low + 1) := by
            omega
          rw [this]
          exact h3
        · have estep : decode_renorm (Nat.succ n) low high value s =
              (DecState.mk low high value, s) := by
            simp [decode_renorm, c1, c2, c3]
          rw [estep]
          exact ⟨⟨h1, h2, c1, c2, c3⟩, hv1, hv2⟩

/-- The decoder loop follows exactly the (low, high) trajectory of the
encoder loop: the encoder masks after the shift, the decoder compensates
by subtracting Int50 before it, and the two agree within the invariant. -/
lemma renorm_lh_eq : ∀ (fuel low high value pending : ℕ) (s : List Bool × Bool),
    low ≤ high → high ≤ MAX_CODE →
    (decode_renorm fuel low high value s).1.low =
        (encode_renorm fuel low high pending).2.low ∧
      (decode_renorm fuel low high value s).1.high =
        (encode_renorm fuel low high pending).2.high := by
  intro fuel
  induction fuel with
  | zero =>
    intro low high value pending s h1 h2
    exact ⟨rfl, rfl⟩
  | succ n ih =>
    intro low high value pending s h1 h2
    have h2' : high ≤ 131071 := h2
    by_cases c1 : high < Int50
    · have c1' : high < 65536 := c1
      have edec : decode_renorm (Nat.succ n) low high value s =
          decode_renorm n (2 * low) (2 * high + 1)
            (2 * value + cond (get_bit s).1 1 0) (get_bit s).2 := by
        simp [decode_renorm, c1]
      have eenc : (encode_renorm (Nat.succ n) low high pending).2 =
          (encode_renorm n (2 * low % 131072) ((2 * high + 1) % 131072) 0).2 := by
        simp [encode_renorm, c1]
      have ha : 2 * low % 131072 = 2 * low := by omega
      have hb : (2 * high + 1) % 131072 = 2 * high + 1 := by omega
      rw [edec, eenc, ha, hb]
      exact ih _ _ _ 0 _ (by omega) (by show 2 * high + 1 ≤ 131071; omega)
    · by_cases c2 : Int50 ≤ low
      · have c2' : 65536 ≤ low := c2
        have edec : decode_renorm (Nat.succ n) low high value s =
            decode_renorm n (2 * (low - Int50)) (2 * (high - Int50) + 1)
              (2 * (value - Int50) + cond (get_bit s).1 1 0) (get_bit s).2 := by
          simp [decode_renorm, c1, c2]
        have eenc : (encode_renorm (Nat.succ n) low high pending).2 =
            (encode_renorm n (2 * low % 131072) ((2 * high + 1) % 131072) 0).2 := by
          simp [encode_renorm, c1, c2]
        have hInt : Int50 = 65536 := rfl
        have ha : 2 * low % 131072 = 2 * (low - 65536) := by omega
        have hb : (2 * high + 1) % 131072 = 2 * (high - 65536) + 1 := by omega
        rw [edec, eenc, ha, hb, hInt]
        exact ih _ _ _ 0 _ (by omega)
          (by show 2 * (high - 65536) + 1 ≤ 131071; omega)
      · by_cases c3 : Int25 ≤ low ∧ high < Int75
        · have c3a : 32768 ≤ low := c3.1
          have c3b : high < 98304 := c3.2
          have c2' : ¬ 65536 ≤ low := c2
          have edec : decode_renorm (Nat.succ n) low high value s =
              decode_renorm n (2 * (low - Int25)) (2 * (high - Int25) + 1)
                (2 * (value - Int25) + cond (get_bit s).1 1 0) (get_bit s).2 := by
            simp [decode_renorm, c1, c2, c3.1, c3.2]
          have eenc : (encode_renorm (Nat.succ n) low high pending).2 =
              (encode_renorm n (2 * (low - Int25) % 131072)
                ((2 * (high - Int25) + 1) % 131072) (pending + 1)).2 := by
            simp [encode_renorm, c1, c2, c3.1, c3.2]
          have hInt : Int25 = 32768 := rfl
          have ha : 2 * (low - 32768) % 131072 = 2 * (low - 32768) := by omega
          have hb : (2 * (high - 32768) + 1) % 131072 = 2 * (high - 32768) + 1 := by omega
          rw [edec, eenc, hInt, ha, hb]
          exact ih _ _ _ (pending + 1) _ (by omega)
            (by show 2 * (high - 32768) + 1 ≤ 131071; omega)
        · have edec : decode_renorm (Nat.succ n) low high value s =
              (DecState.mk low high value, s) := by
            simp [decode_renorm, c1, c2, c3]
          have eenc : (encode_renorm (Nat.succ n) low high pending).2 =
              EncState.mk low high pending := by
            simp [encode_renorm, c1, c2, c3]
          rw [edec, eenc]
          exact ⟨rfl, rfl⟩

/-- A state at the loop break has width at least Int25 + 1. -/
lemma renormDone_width (low high : ℕ) (h1 : low ≤ high) (h2 : high ≤ MAX_CODE)
    (hd : RenormDone low high) : 32769 ≤ high - low := by
  obtain ⟨d1, d2, d3⟩ := hd
  have d1' : ¬ high < 65536 := d1
  have d2' : ¬ 65536 ≤ low := d2
  have d3' : ¬ (32768 ≤ low ∧ high < 98304) := d3
  have h2' : high ≤ 131071 := h2
  by_cases hc : 32768 ≤ low
  · have hge : ¬ high < 98304 := fun hlt => d3' ⟨hc, hlt⟩
    omega
  · omega

/-- `forward_range` narrows within the old interval and stays ordered,
whenever the old width allows every frequency a nonempty slice. -/
lemma forward_range_bounds (low high sl sh : ℕ)
    (h1 : low ≤ high) (h2 : high ≤ MAX_CODE) (hr : 32767 ≤ high - low + 1)
    (hsl : sl < sh) (hsh : sh ≤ 32767) :
    low ≤ (forward_range low high sl sh).1 ∧
    (forward_range low high sl sh).1 ≤ (forward_range low high sl sh).2 ∧
    (forward_range low high sl sh).2 ≤ high := by
  have hsplit : (high - low + 1) * sh =
      (high - low + 1) * sl + (high - low + 1) * (sh - sl) := by
    have h : sh = sl + (sh - sl) := by omega
    conv =>
      lhs
      rw [h]
    rw [Nat.mul_add]
  have hchunk : (high - low + 1) ≤ (high - low + 1) * (sh - sl) :=
    Nat.le_mul_of_pos_right _ (by omega)
  have hbig : (high - low + 1) * sh ≤ (high - low + 1) * 32767 :=
    Nat.mul_le_mul_left _ hsh
  have hgoal : low ≤ low + (high - low + 1) * sl / 32767 ∧
      low + (high - low + 1) * sl / 32767 ≤ low + (high - low + 1) * sh / 32767 - 1 ∧
      low + (high - low + 1) * sh / 32767 - 1 ≤ high := by
    have hdivB : (high - low + 1) * sh / 32767 ≤ high - low + 1 := by
      have hq : (high - low + 1) * sh / 32767 ≤ ((high - low + 1) * 32767) / 32767 :=
        Nat.div_le_div_right hbig
      rwa [Nat.mul_div_cancel _ (by omega : 0 < 32767)] at hq
    generalize hA : (high - low + 1) * sl = A at hsplit ⊢
    generalize hB : (high - low + 1) * sh = B at hsplit hbig hdivB ⊢
    generalize hC : (high - low + 1) * (sh - sl) = C at hsplit hchunk ⊢
    refine ⟨by omega, by omega, by omega⟩
  exact hgoal

/-- The scaled lookup value is always a legal frequency. -/
lemma backward_value_lt (low high value : ℕ) (h1 : low ≤ value) (h2 : value ≤ high) :
    backward_value value low high < 32767 := by
  unfold backward_value MAX_FREQUENCY
  apply (Nat.div_lt_iff_lt_mul (by omega : 0 < high - low + 1)).mpr
  have hm : (value - low + 1) * 32767 ≤ (high - low + 1) * 32767 :=
    Nat.mul_le_mul_right _ (by omega)
  omega

/-- If the scaled value falls in a frequency interval, the value falls in
the narrowed code interval: the heart of decoder consistency. -/
lemma backward_value_bracket (low high value sl sh : ℕ)
    (h1 : low ≤ value) (h2 : value ≤ high)
    (hsl : sl ≤ backward_value value low high)
    (hsh : backward_value value low high < sh) :
    (forward_range low high sl sh).1 ≤ value ∧
    value ≤ (forward_range low high sl sh).2 := by
  unfold backward_value MAX_FREQUENCY at hsl hsh
  unfold forward_range
  have hrpos : 0 < high - low + 1 := by omega
  constructor
  · show low + (high - low + 1) * sl / 32767 ≤ value
    have hsl2 : sl * (high - low + 1) ≤ (value - low + 1) * 32767 - 1 :=
      (Nat.le_div_iff_mul_le hrpos).mp hsl
    by_contra hcon
    push_neg at hcon
    have hlt : value - low + 1 ≤ (high - low + 1) * sl / 32767 := by omega
    have hmul : (value - low + 1) * 32767 ≤ ((high - low + 1) * sl / 32767) * 32767 :=
      Nat.mul_le_mul_right _ hlt
    have hdivmul : ((high - low + 1) * sl / 32767) * 32767 ≤ (high - low + 1) * sl :=
      Nat.div_mul_le_self _ _
    have hcomm : (high - low + 1) * sl = sl * (high - low + 1) := Nat.mul_comm _ _
    omega
  · show value ≤ low + (high - low + 1) * sh / 32767 - 1
    have hsh2 : (value - low + 1) * 32767 - 1 < sh * (high - low + 1) :=
      (Nat.div_lt_iff_lt_mul hrpos).mp hsh
    have hsh3 : (value - low + 1) * 32767 ≤ sh * (high - low + 1) := by omega
    have hle : value - low + 1 ≤ sh * (high - low + 1) / 32767 :=
      (Nat.le_div_iff_mul_le (by omega : 0 < 32767)).mpr hsh3
    have hcomm : (high - low + 1) * sh = sh * (high - low + 1) := Nat.mul_comm _ _
    rw [hcomm]
    omega

/-- What the linear `upper_bound` scan returns: the first index in
[start, start + n) whose entry exceeds f, given one exists. -/
lemma upper_bound_from_spec (tt : ℕ → ℕ) (f : ℕ) :
    ∀ (n start k : ℕ), k < n → f < tt (start + k) →
      start ≤ upper_bound_from tt f start n ∧
      upper_bound_from tt f start n ≤ start + k ∧
      f < tt (upper_bound_from tt f start n) ∧
      ∀ j, start ≤ j → j < upper_bound_from tt f start n → ¬ f < tt j := by
  intro n
  induction n with
  | zero =>
    intro start k hk
    omega
  | succ m ih =>
    intro start k hk hf
    by_cases hs : f < tt start
    · have e : upper_bound_from tt f start (Nat.succ m) = start := by
        simp [upper_bound_from, hs]
      rw [e]
      exact ⟨le_refl _, by omega, hs, fun j hj1 hj2 => by omega⟩
    · have e : upper_bound_from tt f start (Nat.succ m) =
          upper_bound_from tt f (start + 1) m := by
        simp [upper_bound_from, hs]
      rw [e]
      have hk0 : k ≠ 0 := by
        intro h0
        subst h0
        simp at hf
        exact hs hf
      have hstep : (start + 1) + (k - 1) = start + k := by omega
      have := ih (start + 1) (k - 1) (by omega) (by rw [hstep]; exact hf)
      refine ⟨by omega, by omega, this.2.2.1, ?_⟩
      intro j hj1 hj2
      rcases Nat.eq_or_lt_of_le hj1 with he | hlt
      · rw [← he]
        exact hs
      · exact this.2.2.2 j (by omega) hj2

/-- The interval lookup reads two adjacent table entries at a rotated
index below NUM_SYMBOLS. -/
lemma symbol_low_high_shape (t : ℕ → ℕ → ℕ) (m : ModelState) (symbol : ℕ) :
    ∃ loc : ℕ, loc < 1025 ∧
      symbol_low_high t m symbol = (t m.active_dist loc, t m.active_dist (loc + 1)) := by
  refine ⟨_, ?_, rfl⟩
  have hN : ((NUM_SYMBOLS : ℕ) : ℤ) = 1025 := by norm_num [NUM_SYMBOLS]
  have hp : (2 : ℤ) ^ 32 = 4294967296 := by norm_num
  rw [hN, hp]
  omega

/-- Undoing the alphabet rotation: for a bounded shift the uint32
arithmetic in `frequency_symbol` followed by `symbol_low_high` lands back
on the bracket index the search found. -/
lemma symbol_low_high_unshift (t : ℕ → ℕ → ℕ) (m : ModelState) (loc : ℕ)
    (hloc : loc < 1025) (hs1 : -513 ≤ m.active_symbol_shift)
    (hs2 : m.active_symbol_shift ≤ 511) :
    symbol_low_high t m
      ((((loc : ℤ) + (NUM_SYMBOLS : ℤ) - m.active_symbol_shift) % (2 ^ 32) %
        (NUM_SYMBOLS : ℤ)).toNat) =
      (t m.active_dist loc, t m.active_dist (loc + 1)) := by
  have hN : ((NUM_SYMBOLS : ℕ) : ℤ) = 1025 := by norm_num [NUM_SYMBOLS]
  have hp : (2 : ℤ) ^ 32 = 4294967296 := by norm_num
  have key : (((((((loc : ℤ) + (NUM_SYMBOLS : ℤ) - m.active_symbol_shift) % (2 ^ 32) %
      (NUM_SYMBOLS : ℤ)).toNat : ℕ) : ℤ) + (NUM_SYMBOLS : ℤ) + m.active_symbol_shift) %
      (2 ^ 32) % (NUM_SYMBOLS : ℤ)).toNat = loc := by
    rw [hN, hp]
    have hA : ((loc : ℤ) + 1025 - m.active_symbol_shift) % 4294967296 =
        (loc : ℤ) + 1025 - m.active_symbol_shift := by
      omega
    rw [hA]
    have hBt : (((((loc : ℤ) + 1025 - m.active_symbol_shift) % 1025).toNat : ℕ) : ℤ) =
        ((loc : ℤ) + 1025 - m.active_symbol_shift) % 1025 := by
      omega
    rw [hBt]
    have hC : (((loc : ℤ) + 1025 - m.active_symbol_shift) % 1025 + 1025 +
        m.active_symbol_shift) % 4294967296 =
        ((loc : ℤ) + 1025 - m.active_symbol_shift) % 1025 + 1025 +
        m.active_symbol_shift := by
      omega
    rw [hC]
    omega
  simp only [symbol_low_high]
  rw [key]

/-- The decoder symbol search: the scaled frequency falls in the bracket
of the symbol it returns, and the interval lookup for that symbol reads
exactly that bracket. -/
lemma frequency_symbol_lookup (t : ℕ → ℕ → ℕ) (ht : TableOK t) (m : ModelState)
    (hd : m.active_dist < 4) (hs1 : -513 ≤ m.active_symbol_shift)
    (hs2 : m.active_symbol_shift ≤ 511) (f : ℕ) (hf : f < 32767) :
    ∃ loc : ℕ, loc < 1025 ∧
      t m.active_dist loc ≤ f ∧ f < t m.active_dist (loc + 1) ∧
      symbol_low_high t m (frequency_symbol t m f) =
        (t m.active_dist loc, t m.active_dist (loc + 1)) := by
  have hzero : t m.active_dist 0 = 0 := (ht _ hd).1
  have htop : t m.active_dist 1025 = 32767 := by
    have h := (ht _ hd).2.1
    rw [show NUM_SYMBOLS = 1025 from rfl, show MAX_FREQUENCY = 32767 from rfl] at h
    exact h
  have hf1025 : f < t m.active_dist (0 + 1025) := by
    rw [show (0 : ℕ) + 1025 = 1025 from rfl, htop]
    omega
  obtain ⟨hge, hle, hlt, hmin⟩ := upper_bound_from_spec (t m.active_dist) f
    (NUM_SYMBOLS + 1) 0 1025 (by show 1025 < NUM_SYMBOLS + 1; rw [show NUM_SYMBOLS = 1025 from rfl]; omega) hf1025
  have hub1 : 1 ≤ upper_bound_from (t m.active_dist) f 0 (NUM_SYMBOLS + 1) := by
    by_contra hc
    push_neg at hc
    have h0 : upper_bound_from (t m.active_dist) f 0 (NUM_SYMBOLS + 1) = 0 := by omega
    rw [h0, hzero] at hlt
    omega
  refine ⟨upper_bound_from (t m.active_dist) f 0 (NUM_SYMBOLS + 1) - 1, by omega, ?_, ?_, ?_⟩
  · have h := hmin (upper_bound_from (t m.active_dist) f 0 (NUM_SYMBOLS + 1) - 1)
      (by omega) (by omega)
    omega
  · rw [show upper_bound_from (t m.active_dist) f 0 (NUM_SYMBOLS + 1) - 1 + 1 =
      upper_bound_from (t m.active_dist) f 0 (NUM_SYMBOLS + 1) by omega]
    exact hlt
  · have hfreq : frequency_symbol t m f =
        ((((upper_bound_from (t m.active_dist) f 0 (NUM_SYMBOLS + 1) - 1 : ℕ) : ℤ) +
          (NUM_SYMBOLS : ℤ) - m.active_symbol_shift) % (2 ^ 32) %
          (NUM_SYMBOLS : ℤ)).toNat := by
      simp only [frequency_symbol]
      rw [if_neg (by omega : ¬ upper_bound_from (t m.active_dist) f 0 (NUM_SYMBOLS + 1) = 0)]
    rw [hfreq]
    exact symbol_low_high_unshift t m _ (by omega) hs1 hs2

/-- `active_dist` never leaves the bank, whatever the update does. -/
lemma update_dist_lt (m : ModelState) (s : ℕ) (hd : m.active_dist < 4) :
    (update_state m s).active_dist < 4 := by
  by_cases h : outlier_count_next m s = 0
  · rw [update_state_adaptive m s h]
    show min _ 3 < 4
    have := Nat.min_le_right (std_levels_sq.countP
      (fun L => decide (L < omega + alpha * m.var + beta * ((s : ℚ) - m.mean) ^ 2))) 3
    omega
  · rw [update_state_frozen m s h]
    exact hd

/-- The reachable model facts survive every update by a symbol of the
alphabet. -/
lemma modelInv_update (m : ModelState) (hm : ModelInv m) (s : ℕ) (hs : s ≤ 1024) :
    ModelInv (update_state m s) := by
  obtain ⟨hd, hsh1, hsh2, hm0, hm1⟩ := hm
  by_cases h : outlier_count_next m s = 0
  · rw [update_state_adaptive m s h]
    have hsq : (0 : ℚ) ≤ (s : ℚ) := by positivity
    have hsq2 : (s : ℚ) ≤ 1024 := by exact_mod_cast hs
    have hmean2a : 0 ≤ ma * m.mean + (1 - ma) * (s : ℚ) := by
      rw [ma]
      nlinarith
    have hmean2b : ma * m.mean + (1 - ma) * (s : ℚ) ≤ 1024 := by
      rw [ma]
      nlinarith
    have hq0 : 0 ≤ ma * m.mean + (1 - ma) * (s : ℚ) +
        ((s : ℚ) - (ma * m.mean + (1 - ma) * (s : ℚ))) * mrr := by
      rw [ma, mrr] at *
      nlinarith
    have hq1 : ma * m.mean + (1 - ma) * (s : ℚ) +
        ((s : ℚ) - (ma * m.mean + (1 - ma) * (s : ℚ))) * mrr ≤ 1024 := by
      rw [ma, mrr] at *
      nlinarith
    have hfl0 : 0 ≤ Rat.floor (ma * m.mean + (1 - ma) * (s : ℚ) +
        ((s : ℚ) - (ma * m.mean + (1 - ma) * (s : ℚ))) * mrr) := by
      rw [Rat.le_floor]
      exact_mod_cast hq0
    have hfl1 : Rat.floor (ma * m.mean + (1 - ma) * (s : ℚ) +
        ((s : ℚ) - (ma * m.mean + (1 - ma) * (s : ℚ))) * mrr) ≤ 1024 := by
      by_contra hc
      push_neg at hc
      have hle : ((1025 : ℤ) : ℚ) ≤ ma * m.mean + (1 - ma) * (s : ℚ) +
          ((s : ℚ) - (ma * m.mean + (1 - ma) * (s : ℚ))) * mrr := by
        rw [← Rat.le_floor]
        omega
      have : (1025 : ℚ) ≤ 1024 := by
        calc (1025 : ℚ) = ((1025 : ℤ) : ℚ) := by norm_num
          _ ≤ _ := hle
          _ ≤ 1024 := hq1
      norm_num at this
    have htr : truncQ (ma * m.mean + (1 - ma) * (s : ℚ) +
        ((s : ℚ) - (ma * m.mean + (1 - ma) * (s : ℚ))) * mrr) =
        Rat.floor (ma * m.mean + (1 - ma) * (s : ℚ) +
        ((s : ℚ) - (ma * m.mean + (1 - ma) * (s : ℚ))) * mrr) := by
      unfold truncQ
      rw [if_pos hq0]
    have hcast : (castUInt16Q (ma * m.mean + (1 - ma) * (s : ℚ) +
        ((s : ℚ) - (ma * m.mean + (1 - ma) * (s : ℚ))) * mrr) : ℤ) =
        Rat.floor (ma * m.mean + (1 - ma) * (s : ℚ) +
        ((s : ℚ) - (ma * m.mean + (1 - ma) * (s : ℚ))) * mrr) := by
      unfold castUInt16Q
      rw [htr]
      omega
    refine ⟨?_, ?_, ?_, hmean2a, hmean2b⟩
    · show min _ 3 < 4
      have := Nat.min_le_right (std_levels_sq.countP
        (fun L => decide (L < omega + alpha * m.var + beta * ((s : ℚ) - m.mean) ^ 2))) 3
      omega
    · show -513 ≤ toInt16 (511 - (castUInt16Q _ : ℤ))
      rw [hcast, toInt16_eq_self _ (by omega) (by omega)]
      omega
    · show toInt16 (511 - (castUInt16Q _ : ℤ)) ≤ 511
      rw [hcast, toInt16_eq_self _ (by omega) (by omega)]
      omega
  · rw [update_state_frozen m s h]
    exact ⟨hd, hsh1, hsh2, hm0, hm1⟩

/-- The coder state the constructor builds satisfies the invariant. -/
lemma coderInv_init : CoderInv 0 MAX_CODE := by
  refine ⟨Nat.zero_le _, le_refl _, ?_, ?_, ?_⟩
  · show ¬ (131071 : ℕ) < 65536
    omega
  · show ¬ (65536 : ℕ) ≤ 0
    omega
  · intro hc
    have h : (32768 : ℕ) ≤ 0 := hc.1
    omega

/-- The model the constructor builds satisfies the reachable-state facts. -/
lemma modelInv_init : ModelInv initModel := by
  refine ⟨?_, ?_, ?_, ?_, ?_⟩ <;> norm_num [initModel]

/-- The linear witness table is a valid frequency table. -/
lemma tableLin_ok : TableOK tableLin := by
  unfold TableOK tableLin NUM_SYMBOLS MAX_FREQUENCY
  decide

/-- `init` reads n bits into a value below 2^n. -/
lemma read_value_le : ∀ (n v : ℕ) (s : List Bool × Bool),
    (read_value n v s).1 < (v + 1) * 2 ^ n := by
  intro n
  induction n with
  | zero =>
    intro v s
    show v < (v + 1) * 2 ^ 0
    rw [pow_zero, Nat.mul_one]
    omega
  | succ m ih =>
    intro v s
    have hstep : read_value (Nat.succ m) v s =
        read_value m (2 * v + cond (get_bit s).1 1 0) (get_bit s).2 := rfl
    rw [hstep]
    have h := ih (2 * v + cond (get_bit s).1 1 0) (get_bit s).2
    have hb : cond (get_bit s).1 1 0 ≤ 1 := by
      cases (get_bit s).1 <;> simp
    calc (read_value m (2 * v + cond (get_bit s).1 1 0) (get_bit s).2).1 <
          (2 * v + cond (get_bit s).1 1 0 + 1) * 2 ^ m := h
      _ ≤ (2 * v + 2) * 2 ^ m := Nat.mul_le_mul_right _ (by omega)
      _ = (v + 1) * 2 ^ (m + 1) := by ring

/-- One encode call from an invariant state lands back in an invariant
state, for every valid table and in-range distribution index. -/
lemma encoder_encode_post (t : ℕ → ℕ → ℕ) (ht : TableOK t) (m : ModelState)
    (hd : m.active_dist < 4) (st : EncState) (symbol : ℕ)
    (hci : CoderInv st.low st.high) :
    CoderInv (encoder_encode t m st symbol).2.low
      (encoder_encode t m st symbol).2.high := by
  obtain ⟨h1, h2, hdone⟩ := hci
  have hwidth := renormDone_width st.low st.high h1 h2 hdone
  obtain ⟨loc, hloc, heq⟩ := symbol_low_high_shape t m symbol
  have hsl : t m.active_dist loc < t m.active_dist (loc + 1) :=
    (ht _ hd).2.2 loc (by rw [show NUM_SYMBOLS = 1025 from rfl]; omega)
  have hsh : t m.active_dist (loc + 1) ≤ 32767 :=
    tableOK_le_max t ht _ hd (loc + 1) (by rw [show NUM_SYMBOLS = 1025 from rfl]; omega)
  have hfr := forward_range_bounds st.low st.high (t m.active_dist loc)
    (t m.active_dist (loc + 1)) h1 h2 (by omega) hsl hsh
  have hfuel : 131072 ≤ ((forward_range st.low st.high (t m.active_dist loc)
      (t m.active_dist (loc + 1))).2 - (forward_range st.low st.high (t m.active_dist loc)
      (t m.active_dist (loc + 1))).1 + 1) * 2 ^ RENORM_FUEL :=
    calc (131072 : ℕ) ≤ 2 ^ RENORM_FUEL := by
          rw [show RENORM_FUEL = 64 from rfl]
          norm_num
      _ = 1 * 2 ^ RENORM_FUEL := (Nat.one_mul _).symm
      _ ≤ _ := Nat.mul_le_mul_right _ (by omega)
  have hkey : (encoder_encode t m st symbol).2 =
      (encode_renorm RENORM_FUEL
        (forward_range st.low st.high (t m.active_dist loc) (t m.active_dist (loc + 1))).1
        (forward_range st.low st.high (t m.active_dist loc) (t m.active_dist (loc + 1))).2
        st.pending_bits).2 := by
    simp only [encoder_encode, heq]
  rw [hkey]
  exact encode_renorm_post RENORM_FUEL _ _ st.pending_bits hfr.2.1
    (le_trans hfr.2.2 h2) hfuel

/-- One decode call from an invariant state returns an alphabet symbol and
lands back in an invariant state with the value still bracketed. -/
lemma decoder_decode_post (t : ℕ → ℕ → ℕ) (ht : TableOK t) (m : ModelState)
    (hm : ModelInv m) (st : DecState) (s : List Bool × Bool)
    (hci : CoderInv st.low st.high) (hv1 : st.low ≤ st.value)
    (hv2 : st.value ≤ st.high) :
    (decoder_decode t m st s).1 < 1025 ∧
    (CoderInv (decoder_decode t m st s).2.1.low (decoder_decode t m st s).2.1.high ∧
      (decoder_decode t m st s).2.1.low ≤ (decoder_decode t m st s).2.1.value ∧
      (decoder_decode t m st s).2.1.value ≤ (decoder_decode t m st s).2.1.high) := by
  obtain ⟨h1, h2, hdone⟩ := hci
  have hwidth := renormDone_width st.low st.high h1 h2 hdone
  have hf := backward_value_lt st.low st.high st.value hv1 hv2
  obtain ⟨loc, hloc, hfl, hfh, heq⟩ := frequency_symbol_lookup t ht m hm.1 hm.2.1 hm.2.2.1
    (backward_value st.value st.low st.high) hf
  have hsl : t m.active_dist loc < t m.active_dist (loc + 1) :=
    (ht _ hm.1).2.2 loc (by rw [show NUM_SYMBOLS = 1025 from rfl]; omega)
  have hsh : t m.active_dist (loc + 1) ≤ 32767 :=
    tableOK_le_max t ht _ hm.1 (loc + 1) (by rw [show NUM_SYMBOLS = 1025 from rfl]; omega)
  have hfr := forward_range_bounds st.low st.high (t m.active_dist loc)
    (t m.active_dist (loc + 1)) h1 h2 (by omega) hsl hsh
  have hvb := backward_value_bracket st.low st.high st.value (t m.active_dist loc)
    (t m.active_dist (loc + 1)) hv1 hv2 hfl hfh
  have hfuel : 131072 ≤ ((forward_range st.low st.high (t m.active_dist loc)
      (t m.active_dist (loc + 1))).2 - (forward_range st.low st.high (t m.active_dist loc)
      (t m.active_dist (loc + 1))).1 + 1) * 2 ^ RENORM_FUEL :=
    calc (131072 : ℕ) ≤ 2 ^ RENORM_FUEL := by
          rw [show RENORM_FUEL = 64 from rfl]
          norm_num
      _ = 1 * 2 ^ RENORM_FUEL := (Nat.one_mul _).symm
      _ ≤ _ := Nat.mul_le_mul_right _ (by omega)
  have hpost := decode_renorm_post RENORM_FUEL
    (forward_range st.low st.high (t m.active_dist loc) (t m.active_dist (loc + 1))).1
    (forward_range st.low st.high (t m.active_dist loc) (t m.active_dist (loc + 1))).2
    st.value s hfr.2.1 (le_trans hfr.2.2 h2) hvb.1 hvb.2 hfuel
  have hkey : (decoder_decode t m st s).2.1 =
      (decode_renorm RENORM_FUEL
        (forward_range st.low st.high (t m.active_dist loc) (t m.active_dist (loc + 1))).1
        (forward_range st.low st.high (t m.active_dist loc) (t m.active_dist (loc + 1))).2
        st.value s).1 := by
    simp only [decoder_decode, heq]
  refine ⟨?_, ?_, ?_, ?_⟩
  · exact frequency_symbol_lt t m (backward_value st.value st.low st.high)
  · rw [hkey]
    exact hpost.1
  · rw [hkey]
    exact hpost.2.1
  · rw [hkey]
    exact hpost.2.2

/-- Every state on the encoder trajectory is invariant. -/
lemma encoder_states_inv (t : ℕ → ℕ → ℕ) (ht : TableOK t) :
    ∀ (syms : List ℕ) (m : ModelState) (st : EncState),
      m.active_dist < 4 → CoderInv st.low st.high →
      ∀ est ∈ encoder_states t syms m st, CoderInv est.low est.high := by
  intro syms
  induction syms with
  | nil =>
    intro m st hd hci est hmem
    simp [encoder_states] at hmem
  | cons s rest ih =>
    intro m st hd hci est hmem
    have hpost := encoder_encode_post t ht m hd st s hci
    simp only [encoder_states, List.mem_cons] at hmem
    rcases hmem with he | hmem
    · rw [he]
      exact hpost
    · exact ih (update_state m s) _ (update_dist_lt m s hd) hpost est hmem

/-- Every state on the decoder trajectory is invariant and brackets the
code value. -/
lemma decoder_states_inv (t : ℕ → ℕ → ℕ) (ht : TableOK t) :
    ∀ (fuel : ℕ) (m : ModelState) (st : DecState) (s : List Bool × Bool),
      ModelInv m → CoderInv st.low st.high → st.low ≤ st.value → st.value ≤ st.high →
      ∀ dst ∈ decoder_states t fuel m st s,
        CoderInv dst.low dst.high ∧ dst.low ≤ dst.value ∧ dst.value ≤ dst.high := by
  intro fuel
  induction fuel with
  | zero =>
    intro m st s hm hci hv1 hv2 dst hmem
    simp [decoder_states] at hmem
  | succ n ih =>
    intro m st s hm hci hv1 hv2 dst hmem
    have hpost := decoder_decode_post t ht m hm st s hci hv1 hv2
    simp only [decoder_states, List.mem_cons] at hmem
    rcases hmem with he | hmem
    · rw [he]
      exact hpost.2
    · by_cases hstop : (decoder_decode t m st s).1 = NUM_SYMBOLS - 1
      · rw [if_pos hstop] at hmem
        simp at hmem
      · rw [if_neg hstop] at hmem
        exact ih (update_state m (decoder_decode t m st s).1) _ _
          (modelInv_update m hm _ (by have h := hpost.1; omega))
          hpost.2.1 hpost.2.2.1 hpost.2.2.2 dst hmem

/-- On the same symbol stream and from matching invariant states, the
encoder (masked) and decoder (unmasked) produce identical low, high and
model trajectories. -/
lemma lh_traj_eq (t : ℕ → ℕ → ℕ) (ht : TableOK t) :
    ∀ (syms : List ℕ) (m : ModelState) (est : EncState) (dst : DecState)
      (str : List Bool × Bool),
      m.active_dist < 4 → CoderInv est.low est.high →
      dst.low = est.low → dst.high = est.high →
      encoder_lh_traj t syms m est = decoder_lh_traj t syms m dst str := by
  intro syms
  induction syms with
  | nil =>
    intro m est dst str hd hci hl hh
    rfl
  | cons s rest ih =>
    intro m est dst str hd hci hl hh
    obtain ⟨h1, h2, hdone⟩ := hci
    have hwidth := renormDone_width est.low est.high h1 h2 hdone
    obtain ⟨loc, hloc, heq⟩ := symbol_low_high_shape t m s
    have hsl : t m.active_dist loc < t m.active_dist (loc + 1) :=
      (ht _ hd).2.2 loc (by rw [show NUM_SYMBOLS = 1025 from rfl]; omega)
    have hsh : t m.active_dist (loc + 1) ≤ 32767 :=
      tableOK_le_max t ht _ hd (loc + 1) (by rw [show NUM_SYMBOLS = 1025 from rfl]; omega)
    have hfr := forward_range_bounds est.low est.high (t m.active_dist loc)
      (t m.active_dist (loc + 1)) h1 h2 (by omega) hsl hsh
    have hfuel : 131072 ≤ ((forward_range est.low est.high (t m.active_dist loc)
        (t m.active_dist (loc + 1))).2 - (forward_range est.low est.high (t m.active_dist loc)
        (t m.active_dist (loc + 1))).1 + 1) * 2 ^ RENORM_FUEL :=
      calc (131072 : ℕ) ≤ 2 ^ RENORM_FUEL := by
            rw [show RENORM_FUEL = 64 from rfl]
            norm_num
        _ = 1 * 2 ^ RENORM_FUEL := (Nat.one_mul _).symm
        _ ≤ _ := Nat.mul_le_mul_right _ (by omega)
    have hekey : (encoder_encode t m est s).2 =
        (encode_renorm RENORM_FUEL
          (forward_range est.low est.high (t m.active_dist loc) (t m.active_dist (loc + 1))).1
          (forward_range est.low est.high (t m.active_dist loc) (t m.active_dist (loc + 1))).2
          est.pending_bits).2 := by
      simp only [encoder_encode, heq]
    have hdkey : decoder_apply_symbol t m dst str s =
        decode_renorm RENORM_FUEL
          (forward_range est.low est.high (t m.active_dist loc) (t m.active_dist (loc + 1))).1
          (forward_range est.low est.high (t m.active_dist loc) (t m.active_dist (loc + 1))).2
          dst.value str := by
      simp only [decoder_apply_symbol, heq, hl, hh]
    have hlh := renorm_lh_eq RENORM_FUEL
      (forward_range est.low est.high (t m.active_dist loc) (t m.active_dist (loc + 1))).1
      (forward_range est.low est.high (t m.active_dist loc) (t m.active_dist (loc + 1))).2
      dst.value est.pending_bits str hfr.2.1 (le_trans hfr.2.2 h2)
    have hpost := encode_renorm_post RENORM_FUEL
      (forward_range est.low est.high (t m.active_dist loc) (t m.active_dist (loc + 1))).1
      (forward_range est.low est.high (t m.active_dist loc) (t m.active_dist (loc + 1))).2
      est.pending_bits hfr.2.1 (le_trans hfr.2.2 h2) hfuel
    have htail := ih (update_state m s)
      (encode_renorm RENORM_FUEL
        (forward_range est.low est.high (t m.active_dist loc) (t m.active_dist (loc + 1))).1
        (forward_range est.low est.high (t m.active_dist loc) (t m.active_dist (loc + 1))).2
        est.pending_bits).2
      (decode_renorm RENORM_FUEL
        (forward_range est.low est.high (t m.active_dist loc) (t m.active_dist (loc + 1))).1
        (forward_range est.low est.high (t m.active_dist loc) (t m.active_dist (loc + 1))).2
        dst.value str).1
      (decode_renorm RENORM_FUEL
        (forward_range est.low est.high (t m.active_dist loc) (t m.active_dist (loc + 1))).1
        (forward_range est.low est.high (t m.active_dist loc) (t m.active_dist (loc + 1))).2
        dst.value str).2
      (update_dist_lt m s hd) hpost hlh.1 hlh.2
    simp only [encoder_lh_traj, decoder_lh_traj]
    rw [hekey, hdkey, hlh.1, hlh.2, htail]

/-- C4: after every encode call and every decode call from the initial
coder state, 0 ≤ low < high ≤ MAX_CODE and high − low ≥ Int25 hold, and
the decoder additionally keeps low ≤ value ≤ high. -/
theorem C4_coder_invariants (t : ℕ → ℕ → ℕ) (ht : TableOK t) :
    (∀ (syms : List ℕ) (est : EncState),
        est ∈ encoder_states t syms initModel (EncState.mk 0 MAX_CODE 0) →
        est.low < est.high ∧ est.high ≤ MAX_CODE ∧ Int25 ≤ est.high - est.low) ∧
    (∀ (fuel : ℕ) (bits : List Bool × Bool) (dst : DecState),
        dst ∈ decoder_states t fuel initModel
          (DecState.mk 0 MAX_CODE (read_value 17 0 bits).1) (read_value 17 0 bits).2 →
        dst.low < dst.high ∧ dst.high ≤ MAX_CODE ∧ Int25 ≤ dst.high - dst.low ∧
          dst.low ≤ dst.value ∧ dst.value ≤ dst.high) := by
  constructor
  · intro syms est hmem
    obtain ⟨h1, h2, hdone⟩ := encoder_states_inv t ht syms initModel
      (EncState.mk 0 MAX_CODE 0) modelInv_init.1 coderInv_init est hmem
    have hw := renormDone_width est.low est.high h1 h2 hdone
    refine ⟨by omega, h2, ?_⟩
    show 32768 ≤ est.high - est.low
    omega
  · intro fuel bits dst hmem
    have hv0 : (read_value 17 0 bits).1 < 131072 := by
      have h := read_value_le 17 0 bits
      have he : (0 + 1) * 2 ^ 17 = 131072 := by norm_num
      rw [he] at h
      exact h
    obtain ⟨⟨h1, h2, hdone⟩, hv1, hv2⟩ := decoder_states_inv t ht fuel initModel
      (DecState.mk 0 MAX_CODE (read_value 17 0 bits).1) (read_value 17 0 bits).2
      modelInv_init coderInv_init (Nat.zero_le _)
      (by show (read_value 17 0 bits).1 ≤ 131071; omega) dst hmem
    have hw := renormDone_width dst.low dst.high h1 h2 hdone
    refine ⟨by omega, h2, ?_, hv1, hv2⟩
    show 32768 ≤ dst.high - dst.low
    omega

/-- C4 witness: the invariants instantiated at the linear table. -/
theorem C4_coder_invariants_witness :
    TableOK tableLin ∧
    ((∀ (syms : List ℕ) (est : EncState),
        est ∈ encoder_states tableLin syms initModel (EncState.mk 0 MAX_CODE 0) →
        est.low < est.high ∧ est.high ≤ MAX_CODE ∧ Int25 ≤ est.high - est.low) ∧
    (∀ (fuel : ℕ) (bits : List Bool × Bool) (dst : DecState),
        dst ∈ decoder_states tableLin fuel initModel
          (DecState.mk 0 MAX_CODE (read_value 17 0 bits).1) (read_value 17 0 bits).2 →
        dst.low < dst.high ∧ dst.high ≤ MAX_CODE ∧ Int25 ≤ dst.high - dst.low ∧
          dst.low ≤ dst.value ∧ dst.value ≤ dst.high)) :=
  ⟨tableLin_ok, C4_coder_invariants tableLin tableLin_ok⟩

/-- C2: for every symbol sequence, the masked encoder and the unmasked
decoder have identical low, high and model-state trajectories after each
corresponding encode/decode call, whatever bits the decoder reads. -/
theorem C2_encoder_decoder_trajectories (t : ℕ → ℕ → ℕ) (ht : TableOK t)
    (syms : List ℕ) (v0 : ℕ) (str : List Bool × Bool) :
    encoder_lh_traj t syms initModel (EncState.mk 0 MAX_CODE 0) =
      decoder_lh_traj t syms initModel (DecState.mk 0 MAX_CODE v0) str :=
  lh_traj_eq t ht syms initModel (EncState.mk 0 MAX_CODE 0)
    (DecState.mk 0 MAX_CODE v0) str modelInv_init.1 coderInv_init rfl rfl

/-- C2 witness: the trajectory equality instantiated at the linear table
on a one-symbol stream. -/
theorem C2_encoder_decoder_trajectories_witness :
    TableOK tableLin ∧
    encoder_lh_traj tableLin [512] initModel (EncState.mk 0 MAX_CODE 0) =
      decoder_lh_traj tableLin [512] initModel (DecState.mk 0 MAX_CODE 0) ([], false) :=
  ⟨tableLin_ok, C2_encoder_decoder_trajectories tableLin tableLin_ok [512] 0 ([], false)⟩

end Neuralink
